import Mathlib

set_option maxHeartbeats 1000000
set_option linter.unusedVariables false

noncomputable section

namespace Quantum

/-! # Shallow embedding of `TrugenbergerAlgorithm.py`

The program builds a qiskit circuit over a pattern register `p`/`i`, an
intermediate register `u = (u0, u1)` and a memory register `m`, and simulates
it with exact state vectors.  We embed basis states as Boolean assignments to
qubits, states as complex amplitude functions on basis states, and the gate
vocabulary actually used by the source (`x`, `h`, `p`, `cx`, `ccx`, `mcx`,
`cry`, and the controlled phase appended in `cu_squared`) as an inductive type
with an amplitude-level semantics. -/

/-- A basis state over `n` qubits assigns one Boolean to each qubit.  Bit `j`
of a little-endian integer value corresponds to qubit `j` of its register. -/
abbrev Basis (n : ℕ) := Fin n → Bool

/-- A state vector: a complex amplitude for every basis state. -/
abbrev State (n : ℕ) := Basis n → ℂ

/-- The closed set of gate variants appearing in the source circuit. -/
inductive Gate (n : ℕ) where
  | x (q : Fin n)
  | h (q : Fin n)
  | p (θ : ℝ) (q : Fin n)
  | cx (c t : Fin n)
  | ccx (c1 c2 t : Fin n)
  | mcx (cs : List (Fin n)) (t : Fin n)
  | cry (θ : ℝ) (c t : Fin n)
  | cp (θ : ℝ) (c t : Fin n)

/-- Amplitude-level action of one gate, mirroring the qiskit semantics of the
gates used in the source: `x` flips a bit, `h` is the Hadamard transform,
`p θ` multiplies the `|1⟩` component by `exp(iθ)`, `cx`/`ccx`/`mcx` are
(multi-)controlled bit flips, `cry θ` is the controlled `RY(θ)` rotation with
matrix `[[cos(θ/2), -sin(θ/2)], [sin(θ/2), cos(θ/2)]]` on the target, and
`cp θ` is the controlled phase `diag(1, exp(iθ))`. -/
def applyGate {n : ℕ} : Gate n → State n → State n
  | Gate.x q, ψ => fun σ => ψ (Function.update σ q (!(σ q)))
  | Gate.h q, ψ => fun σ =>
      (ψ (Function.update σ q false) +
        (if σ q then -1 else 1) * ψ (Function.update σ q true)) / (Real.sqrt 2 : ℂ)
  | Gate.p θ q, ψ => fun σ => if σ q then Complex.exp (θ * Complex.I) * ψ σ else ψ σ
  | Gate.cx c t, ψ => fun σ => ψ (Function.update σ t (xor (σ t) (σ c)))
  | Gate.ccx c1 c2 t, ψ => fun σ => ψ (Function.update σ t (xor (σ t) (σ c1 && σ c2)))
  | Gate.mcx cs t, ψ => fun σ => ψ (Function.update σ t (xor (σ t) (cs.all fun c => σ c)))
  | Gate.cry θ c t, ψ => fun σ =>
      if σ c then
        if σ t then
          (Real.sin (θ / 2) : ℂ) * ψ (Function.update σ t false) +
            (Real.cos (θ / 2) : ℂ) * ψ (Function.update σ t true)
        else
          (Real.cos (θ / 2) : ℂ) * ψ (Function.update σ t false) -
            (Real.sin (θ / 2) : ℂ) * ψ (Function.update σ t true)
      else ψ σ
  | Gate.cp θ c t, ψ => fun σ => if σ c && σ t then Complex.exp (θ * Complex.I) * ψ σ else ψ σ

/-- Applying a list of gates in order (the order in which the source appends
them to the circuit). -/
def applyCircuit {n : ℕ} (gs : List (Gate n)) (ψ : State n) : State n :=
  gs.foldl (fun φ g => applyGate g φ) ψ

/-- The computational basis state `|b⟩`. -/
def basisState {n : ℕ} (b : Basis n) : State n := fun σ => if σ = b then 1 else 0

/-- Sum of squared amplitude magnitudes over the full basis. -/
def normSum {n : ℕ} (ψ : State n) : ℝ := ∑ σ : Basis n, Complex.normSq (ψ σ)

/-- Probability of observing the bit value `b` on qubit `q`: the sum of squared
magnitudes over all basis states agreeing with `b` at `q`. -/
def marginalProb {n : ℕ} (ψ : State n) (q : Fin n) (b : Bool) : ℝ :=
  ∑ σ : Basis n, if σ q = b then Complex.normSq (ψ σ) else 0

@[simp] theorem applyCircuit_nil {n : ℕ} (ψ : State n) : applyCircuit [] ψ = ψ := rfl

@[simp] theorem applyCircuit_cons {n : ℕ} (g : Gate n) (gs : List (Gate n)) (ψ : State n) :
    applyCircuit (g :: gs) ψ = applyCircuit gs (applyGate g ψ) := rfl

theorem applyCircuit_append {n : ℕ} (gs hs : List (Gate n)) (ψ : State n) :
    applyCircuit (gs ++ hs) ψ = applyCircuit hs (applyCircuit gs ψ) :=
  List.foldl_append ..

/-! ## Pattern codec: `apply_pauli_from_int`

The source formats `value` as a binary string padded to at least `len(qubits)`
characters and, walking that string least-significant bit first, applies
`qc.x(qubits[idx])` for every `1` bit.  When the value needs more bits than the
register holds, the walk indexes the register out of range at the first high
set bit and qiskit raises (the spec's `EncodingOverflow`). -/

/-- Error raised by the pattern codec when a value is wider than its register. -/
inductive StorageError where
  | encodingOverflow
deriving DecidableEq

/-- Length of the binary string `f"{value:0{w}b}"`: at least `w`, at least one
character, and at least the bit length of `value`. -/
def padLen (value w : ℕ) : ℕ := max w (max 1 value.size)

/-- The walk over bit positions performed by `apply_pauli_from_int`: for each
index with a set bit, emit an `x` gate on the register qubit at that index, or
fail if the index is outside the register. -/
def pauliLoop {n : ℕ} (value : ℕ) (qubits : List (Fin n)) :
    List ℕ → List (Gate n) → Except StorageError (List (Gate n))
  | [], acc => .ok acc
  | idx :: rest, acc =>
      if value.testBit idx then
        match qubits.get? idx with
        | some q => pauliLoop value qubits rest (acc ++ [Gate.x q])
        | none => .error StorageError.encodingOverflow
      else pauliLoop value qubits rest acc

/-- Embedding of `apply_pauli_from_int(qc, value, qubits)` (source lines
24–28): little-endian encoding of `value` as `x` gates on `qubits`, failing
with an overflow error when `value` does not fit the register width. -/
def apply_pauli_from_int {n : ℕ} (value : ℕ) (qubits : List (Fin n)) :
    Except StorageError (List (Gate n)) :=
  pauliLoop value qubits (List.range (padLen value qubits.length)) []

/-- The gate list produced by `apply_pauli_from_int` on a fitting value: one
`x` gate on `qubits[idx]` for every set bit `idx` of `value`, in increasing
bit order; set bits beyond the register (which make the faithful checked walk
fail) produce no gate here. -/
def pauliGates {n : ℕ} (value : ℕ) (qubits : List (Fin n)) : List (Gate n) :=
  (List.range (padLen value qubits.length)).flatMap fun idx =>
    if value.testBit idx then ((qubits.get? idx).map Gate.x).toList else []

/-! ## Angle schedule and storage algorithm -/

/-- Embedding of `find_angle(j)` (source lines 31–32) as a real number:
`-2 * arccos(sqrt((j - 1) / j))`. -/
def find_angle (j : ℕ) : ℝ := -2 * Real.arccos (Real.sqrt (((j : ℝ) - 1) / (j : ℝ)))

/-- Outcome of evaluating `find_angle` with Python/numpy semantics: a real
number, a `ZeroDivisionError`, or a silent `nan` result. -/
inductive AngleResult where
  | ok (θ : ℝ)
  | zeroDivisionError
  | nanResult

/-- Evaluation of `find_angle(j)` on an arbitrary integer argument with
Python/numpy semantics: `(j - 1) / j` raises `ZeroDivisionError` at `j = 0`;
`np.sqrt` of a negative argument is `nan`; `np.arccos` of an argument outside
`[-1, 1]` is `nan`, and `nan` propagates to the result.  Only when none of
these trip does the call return the real number `find_angle j`. -/
def find_angle_checked (j : ℤ) : AngleResult :=
  if j = 0 then AngleResult.zeroDivisionError
  else if ((j : ℝ) - 1) / (j : ℝ) < 0 then AngleResult.nanResult
  else if 1 < Real.sqrt (((j : ℝ) - 1) / (j : ℝ)) ∨ Real.sqrt (((j : ℝ) - 1) / (j : ℝ)) < -1 then
    AngleResult.nanResult
  else AngleResult.ok (-2 * Real.arccos (Real.sqrt (((j : ℝ) - 1) / (j : ℝ))))

/-- Embedding of `controlled_si(qc, p, u, i, len_ps)` (source lines 34–36):
one `cry` rotation on `(u0, u1)` with angle `find_angle(len_ps + 1 - i)`. -/
def controlled_si {n : ℕ} (u0 u1 : Fin n) (i len_ps : ℕ) : Gate n :=
  Gate.cry (find_angle (len_ps + 1 - i)) u0 u1

/-- One iteration of the loop body of `storage_algorithm` (source lines
39–72) for the pattern `val` at 1-based load index `i` among `len_ps`
patterns, on pattern register `pr`, intermediate qubits `u0`, `u1` and memory
register `m`.  `pauliGates` stands for the gate list of the codec, whose
faithful checked form is related to it by `apply_pauli_from_int_ok`. -/
def storage_step {n : ℕ} (val : ℕ) (pr : List (Fin n)) (u0 u1 : Fin n)
    (m : List (Fin n)) (i len_ps : ℕ) : List (Gate n) :=
  pauliGates val pr
    ++ (pr.zip m).map (fun q => Gate.ccx q.1 u1 q.2)
    ++ (pr.zip m).flatMap (fun q => [Gate.cx q.1 q.2, Gate.x q.2])
    ++ [Gate.mcx m u0]
    ++ [controlled_si u0 u1 i len_ps]
    ++ [Gate.mcx m u0]
    ++ (pr.zip m).reverse.flatMap (fun q => [Gate.x q.2, Gate.cx q.1 q.2])
    ++ (pr.zip m).reverse.map (fun q => Gate.ccx q.1 u1 q.2)
    ++ pauliGates val pr

/-- Embedding of `storage_algorithm(qc, ps, p, u, m)` (source lines 38–72):
the per-pattern storage sequence run once per pattern in list order, the
pattern at 0-based position `idx` using load index `idx + 1`. -/
def storage_algorithm {n : ℕ} (ps : List ℕ) (pr : List (Fin n)) (u0 u1 : Fin n)
    (m : List (Fin n)) : List (Gate n) :=
  ps.enum.flatMap fun iv => storage_step iv.2 pr u0 u1 m (iv.1 + 1) ps.length

/-! ## Retrieval algorithm -/

/-- Embedding of `u_gate(qc, qubit, n)` (source lines 74–77): a phase rotation
of angle `π / (2n)` sandwiched between bit flips. -/
def u_gate {n : ℕ} (q : Fin n) (len : ℕ) : List (Gate n) :=
  [Gate.x q, Gate.p (Real.pi / (2 * (len : ℝ))) q, Gate.x q]

/-- Embedding of `cu_squared(qc, control, target, n)` (source lines 80–87):
a controlled phase of angle `-π / n` sandwiched between controlled bit flips. -/
def cu_squared {n : ℕ} (c t : Fin n) (len : ℕ) : List (Gate n) :=
  [Gate.cx c t, Gate.cp (-Real.pi / (len : ℝ)) c t, Gate.cx c t]

/-- Embedding of `apply_u_and_cu(qc, m, c)` (source lines 89–99) with
`n = len(m)`: `u_gate` on every memory qubit, then `cu_squared` from `c` to
every memory qubit. -/
def apply_u_and_cu {n : ℕ} (m : List (Fin n)) (c : Fin n) : List (Gate n) :=
  (m.flatMap fun q => u_gate q m.length) ++ (m.flatMap fun q => cu_squared c q m.length)

/-- Embedding of `retrieval_algorithm(qc, i, m, c)` (source lines 102–123):
Hadamard on `c`, the compare loop `cx(i[j], m[j]); x(m[j])`, the exponential
operator, the reversed compare loop, and a final Hadamard on `c`. -/
def retrieval_algorithm {n : ℕ} (i m : List (Fin n)) (c : Fin n) : List (Gate n) :=
  [Gate.h c]
    ++ (i.zip m).flatMap (fun q => [Gate.cx q.1 q.2, Gate.x q.2])
    ++ apply_u_and_cu m c
    ++ (i.zip m).reverse.flatMap (fun q => [Gate.x q.2, Gate.cx q.1 q.2])
    ++ [Gate.h c]

/-- Embedding of `bv_algorithm(qc, i, m, c, degree_threshold)` (source lines
125–130): Hadamards on the input register around `retrieval_algorithm`.  The
`degree_threshold` parameter is accepted with an arbitrary type because the
source never reads it. -/
def bv_algorithm {n : ℕ} {α : Type} (i m : List (Fin n)) (c : Fin n)
    (degree_threshold : α) : List (Gate n) :=
  i.map Gate.h ++ retrieval_algorithm i m c ++ i.map Gate.h

/-! ## The register layout of `run_quantum_memory`

The driver allocates the pattern/input register first, then `u0`, `u1`, then
the memory register, with pattern and memory registers of one common width
`w` (the driver uses `w = 3`).  We keep `w` as a parameter. -/

/-- Qubit index of pattern bit `j`. -/
def pIdx (w : ℕ) (j : Fin w) : Fin (2 * w + 2) := ⟨j.val, by have := j.isLt; omega⟩

/-- Qubit index of the intermediate qubit `u0`. -/
def u0I (w : ℕ) : Fin (2 * w + 2) := ⟨w, by omega⟩

/-- Qubit index of the intermediate qubit `u1`. -/
def u1I (w : ℕ) : Fin (2 * w + 2) := ⟨w + 1, by omega⟩

/-- Qubit index of memory bit `j`. -/
def mIdx (w : ℕ) (j : Fin w) : Fin (2 * w + 2) := ⟨w + 2 + j.val, by have := j.isLt; omega⟩

/-- The pattern register as a qubit list. -/
def pReg (w : ℕ) : List (Fin (2 * w + 2)) := (List.finRange w).map (pIdx w)

/-- The memory register as a qubit list. -/
def mReg (w : ℕ) : List (Fin (2 * w + 2)) := (List.finRange w).map (mIdx w)

/-- Assembling a basis state from register contents: pattern bits `pv`,
intermediate bits `a` (`u0`) and `b` (`u1`), memory bits `mv`. -/
def mkB {w : ℕ} (pv : Fin w → Bool) (a b : Bool) (mv : Fin w → Bool) : Basis (2 * w + 2) :=
  fun q =>
    if h1 : q.val < w then pv ⟨q.val, h1⟩
    else if h2 : q.val = w then a
    else if h3 : q.val = w + 1 then b
    else mv ⟨q.val - (w + 2), by have := q.isLt; omega⟩

/-- The all-false register content. -/
def zf (w : ℕ) : Fin w → Bool := fun _ => false

/-- The little-endian bits of a pattern value, as register content. -/
def bitsOf (w : ℕ) (val : ℕ) : Fin w → Bool := fun j => val.testBit j.val

/-- The initial state of the driver: all qubits `|0⟩` except `u1`, which is
flipped to `|1⟩` before storage begins. -/
def initState (w : ℕ) : State (2 * w + 2) := basisState (mkB (zf w) false true (zf w))

/-! ## Register layout lemmas -/

section Layout

variable {w : ℕ}

@[simp] theorem pIdx_val (j : Fin w) : (pIdx w j).val = j.val := rfl
@[simp] theorem u0I_val : (u0I w).val = w := rfl
@[simp] theorem u1I_val : (u1I w).val = w + 1 := rfl
@[simp] theorem mIdx_val (j : Fin w) : (mIdx w j).val = w + 2 + j.val := rfl

@[simp] theorem pIdx_ne_u0I (j : Fin w) : pIdx w j ≠ u0I w := by
  simp [Fin.ext_iff]; omega
@[simp] theorem pIdx_ne_u1I (j : Fin w) : pIdx w j ≠ u1I w := by
  have := j.isLt; simp [Fin.ext_iff]; omega
@[simp] theorem pIdx_ne_mIdx (j k : Fin w) : pIdx w j ≠ mIdx w k := by
  have := j.isLt; simp [Fin.ext_iff]; omega
@[simp] theorem u0I_ne_u1I : u0I w ≠ u1I w := by simp [Fin.ext_iff]
@[simp] theorem u0I_ne_mIdx (k : Fin w) : u0I w ≠ mIdx w k := by
  simp [Fin.ext_iff]; omega
@[simp] theorem u1I_ne_mIdx (k : Fin w) : u1I w ≠ mIdx w k := by
  simp [Fin.ext_iff]; omega
@[simp] theorem u0I_ne_pIdx (j : Fin w) : u0I w ≠ pIdx w j := (pIdx_ne_u0I j).symm
@[simp] theorem u1I_ne_pIdx (j : Fin w) : u1I w ≠ pIdx w j := (pIdx_ne_u1I j).symm
@[simp] theorem mIdx_ne_pIdx (j k : Fin w) : mIdx w k ≠ pIdx w j := (pIdx_ne_mIdx j k).symm
@[simp] theorem u1I_ne_u0I : u1I w ≠ u0I w := u0I_ne_u1I.symm
@[simp] theorem mIdx_ne_u0I (k : Fin w) : mIdx w k ≠ u0I w := (u0I_ne_mIdx k).symm
@[simp] theorem mIdx_ne_u1I (k : Fin w) : mIdx w k ≠ u1I w := (u1I_ne_mIdx k).symm

theorem pIdx_inj {j k : Fin w} (h : pIdx w j = pIdx w k) : j = k := by
  simpa [Fin.ext_iff] using h

theorem mIdx_inj {j k : Fin w} (h : mIdx w j = mIdx w k) : j = k := by
  have : w + 2 + j.val = w + 2 + k.val := by simpa [Fin.ext_iff] using h
  exact Fin.ext (by omega)

@[simp] theorem mIdx_eq_iff {j k : Fin w} : mIdx w j = mIdx w k ↔ j = k :=
  ⟨mIdx_inj, fun h => h ▸ rfl⟩

@[simp] theorem pIdx_eq_iff {j k : Fin w} : pIdx w j = pIdx w k ↔ j = k :=
  ⟨pIdx_inj, fun h => h ▸ rfl⟩

@[simp] theorem mkB_pIdx (pv : Fin w → Bool) (a b : Bool) (mv : Fin w → Bool) (j : Fin w) :
    mkB pv a b mv (pIdx w j) = pv j := by
  have hj := j.isLt
  simp only [mkB, pIdx]
  rw [dif_pos hj]

@[simp] theorem mkB_u0I (pv : Fin w → Bool) (a b : Bool) (mv : Fin w → Bool) :
    mkB pv a b mv (u0I w) = a := by
  simp only [mkB, u0I]
  rw [dif_neg (by omega)]
  simp

@[simp] theorem mkB_u1I (pv : Fin w → Bool) (a b : Bool) (mv : Fin w → Bool) :
    mkB pv a b mv (u1I w) = b := by
  simp only [mkB, u1I]
  rw [dif_neg (by omega), dif_neg (by omega)]
  simp

@[simp] theorem mkB_mIdx (pv : Fin w → Bool) (a b : Bool) (mv : Fin w → Bool) (j : Fin w) :
    mkB pv a b mv (mIdx w j) = mv j := by
  simp only [mkB, mIdx]
  rw [dif_neg (by omega), dif_neg (by omega), dif_neg (by omega)]
  congr 1
  exact Fin.ext (by simp)

theorem eq_mkB (σ : Basis (2 * w + 2)) :
    σ = mkB (fun j => σ (pIdx w j)) (σ (u0I w)) (σ (u1I w)) (fun j => σ (mIdx w j)) := by
  funext q
  by_cases h1 : q.val < w
  · have : q = pIdx w ⟨q.val, h1⟩ := Fin.ext rfl
    rw [this, mkB_pIdx]
  · by_cases h2 : q.val = w
    · have : q = u0I w := Fin.ext h2
      rw [this, mkB_u0I]
    · by_cases h3 : q.val = w + 1
      · have : q = u1I w := Fin.ext h3
        rw [this, mkB_u1I]
      · have hw : q.val - (w + 2) < w := by have := q.isLt; omega
        have : q = mIdx w ⟨q.val - (w + 2), hw⟩ := Fin.ext (by simp; omega)
        rw [this, mkB_mIdx]

theorem mkB_eq_mkB_iff {pv pv' : Fin w → Bool} {a a' b b' : Bool} {mv mv' : Fin w → Bool} :
    mkB pv a b mv = mkB pv' a' b' mv' ↔ pv = pv' ∧ a = a' ∧ b = b' ∧ mv = mv' := by
  constructor
  · intro h
    refine ⟨funext fun j => ?_, ?_, ?_, funext fun j => ?_⟩
    · have := congrFun h (pIdx w j); simpa using this
    · have := congrFun h (u0I w); simpa using this
    · have := congrFun h (u1I w); simpa using this
    · have := congrFun h (mIdx w j); simpa using this
  · rintro ⟨rfl, rfl, rfl, rfl⟩; rfl

theorem update_mkB_pIdx (pv : Fin w → Bool) (a b : Bool) (mv : Fin w → Bool)
    (j : Fin w) (v : Bool) :
    Function.update (mkB pv a b mv) (pIdx w j) v = mkB (Function.update pv j v) a b mv := by
  funext q
  by_cases h1 : q.val < w
  · have hq : q = pIdx w ⟨q.val, h1⟩ := Fin.ext rfl
    rw [hq]
    rcases eq_or_ne (⟨q.val, h1⟩ : Fin w) j with h | h
    · subst h; simp
    · rw [Function.update_noteq (by simpa using h), mkB_pIdx, mkB_pIdx,
        Function.update_noteq h]
  · by_cases h2 : q.val = w
    · have hq : q = u0I w := Fin.ext h2
      rw [hq, Function.update_noteq (u0I_ne_pIdx j), mkB_u0I, mkB_u0I]
    · by_cases h3 : q.val = w + 1
      · have hq : q = u1I w := Fin.ext h3
        rw [hq, Function.update_noteq (u1I_ne_pIdx j), mkB_u1I, mkB_u1I]
      · have hw : q.val - (w + 2) < w := by have := q.isLt; omega
        have hq : q = mIdx w ⟨q.val - (w + 2), hw⟩ := Fin.ext (by simp; omega)
        rw [hq, Function.update_noteq (mIdx_ne_pIdx j _), mkB_mIdx, mkB_mIdx]

theorem update_mkB_mIdx (pv : Fin w → Bool) (a b : Bool) (mv : Fin w → Bool)
    (j : Fin w) (v : Bool) :
    Function.update (mkB pv a b mv) (mIdx w j) v = mkB pv a b (Function.update mv j v) := by
  funext q
  by_cases h1 : q.val < w
  · have hq : q = pIdx w ⟨q.val, h1⟩ := Fin.ext rfl
    rw [hq, Function.update_noteq (pIdx_ne_mIdx _ j), mkB_pIdx, mkB_pIdx]
  · by_cases h2 : q.val = w
    · have hq : q = u0I w := Fin.ext h2
      rw [hq, Function.update_noteq (u0I_ne_mIdx j), mkB_u0I, mkB_u0I]
    · by_cases h3 : q.val = w + 1
      · have hq : q = u1I w := Fin.ext h3
        rw [hq, Function.update_noteq (u1I_ne_mIdx j), mkB_u1I, mkB_u1I]
      · have hw : q.val - (w + 2) < w := by have := q.isLt; omega
        have hq : q = mIdx w ⟨q.val - (w + 2), hw⟩ := Fin.ext (by simp; omega)
        rw [hq]
        rcases eq_or_ne (⟨q.val - (w + 2), hw⟩ : Fin w) j with h | h
        · subst h; simp
        · rw [Function.update_noteq (by simpa using h), mkB_mIdx, mkB_mIdx,
            Function.update_noteq h]

theorem update_mkB_u0I (pv : Fin w → Bool) (a b : Bool) (mv : Fin w → Bool) (v : Bool) :
    Function.update (mkB pv a b mv) (u0I w) v = mkB pv v b mv := by
  funext q
  by_cases h1 : q.val < w
  · have hq : q = pIdx w ⟨q.val, h1⟩ := Fin.ext rfl
    rw [hq, Function.update_noteq (pIdx_ne_u0I _), mkB_pIdx, mkB_pIdx]
  · by_cases h2 : q.val = w
    · have hq : q = u0I w := Fin.ext h2
      rw [hq]; simp
    · by_cases h3 : q.val = w + 1
      · have hq : q = u1I w := Fin.ext h3
        rw [hq, Function.update_noteq u1I_ne_u0I, mkB_u1I, mkB_u1I]
      · have hw : q.val - (w + 2) < w := by have := q.isLt; omega
        have hq : q = mIdx w ⟨q.val - (w + 2), hw⟩ := Fin.ext (by simp; omega)
        rw [hq, Function.update_noteq (mIdx_ne_u0I _), mkB_mIdx, mkB_mIdx]

theorem update_mkB_u1I (pv : Fin w → Bool) (a b : Bool) (mv : Fin w → Bool) (v : Bool) :
    Function.update (mkB pv a b mv) (u1I w) v = mkB pv a v mv := by
  funext q
  by_cases h1 : q.val < w
  · have hq : q = pIdx w ⟨q.val, h1⟩ := Fin.ext rfl
    rw [hq, Function.update_noteq (pIdx_ne_u1I _), mkB_pIdx, mkB_pIdx]
  · by_cases h2 : q.val = w
    · have hq : q = u0I w := Fin.ext h2
      rw [hq, Function.update_noteq u0I_ne_u1I, mkB_u0I, mkB_u0I]
    · by_cases h3 : q.val = w + 1
      · have hq : q = u1I w := Fin.ext h3
        rw [hq]; simp
      · have hw : q.val - (w + 2) < w := by have := q.isLt; omega
        have hq : q = mIdx w ⟨q.val - (w + 2), hw⟩ := Fin.ext (by simp; omega)
        rw [hq, Function.update_noteq (mIdx_ne_u1I _), mkB_mIdx, mkB_mIdx]

end Layout

/-! ## Linearity of gate application -/

theorem applyGate_add {n : ℕ} (g : Gate n) (ψ φ : State n) :
    applyGate g (ψ + φ) = applyGate g ψ + applyGate g φ := by
  cases g <;> funext σ <;> simp only [applyGate, Pi.add_apply] <;> split_ifs <;> ring

theorem applyGate_smul {n : ℕ} (g : Gate n) (c : ℂ) (ψ : State n) :
    applyGate g (c • ψ) = c • applyGate g ψ := by
  cases g <;> funext σ <;>
    simp only [applyGate, Pi.smul_apply, smul_eq_mul] <;> split_ifs <;> ring

theorem applyCircuit_add {n : ℕ} (gs : List (Gate n)) (ψ φ : State n) :
    applyCircuit gs (ψ + φ) = applyCircuit gs ψ + applyCircuit gs φ := by
  induction gs generalizing ψ φ with
  | nil => rfl
  | cons g gs ih => rw [applyCircuit_cons, applyCircuit_cons, applyCircuit_cons,
      applyGate_add, ih]

theorem applyCircuit_smul {n : ℕ} (gs : List (Gate n)) (c : ℂ) (ψ : State n) :
    applyCircuit gs (c • ψ) = c • applyCircuit gs ψ := by
  induction gs generalizing ψ with
  | nil => rfl
  | cons g gs ih => rw [applyCircuit_cons, applyCircuit_cons, applyGate_smul, ih]

/-! ## Permutation gates on basis states -/

/-- The basis permutation of the `x` gate. -/
def flipMap {n : ℕ} (q : Fin n) (σ : Basis n) : Basis n :=
  Function.update σ q (!(σ q))

/-- The basis permutation of the `cx` gate. -/
def cxMap {n : ℕ} (c t : Fin n) (σ : Basis n) : Basis n :=
  Function.update σ t (xor (σ t) (σ c))

/-- The basis permutation of the `ccx` gate. -/
def ccxMap {n : ℕ} (c1 c2 t : Fin n) (σ : Basis n) : Basis n :=
  Function.update σ t (xor (σ t) (σ c1 && σ c2))

/-- The basis permutation of the `mcx` gate. -/
def mcxMap {n : ℕ} (cs : List (Fin n)) (t : Fin n) (σ : Basis n) : Basis n :=
  Function.update σ t (xor (σ t) (cs.all fun c => σ c))

theorem applyGate_x_eq {n : ℕ} (q : Fin n) (ψ : State n) :
    applyGate (Gate.x q) ψ = fun σ => ψ (flipMap q σ) := rfl

theorem applyGate_cx_eq {n : ℕ} (c t : Fin n) (ψ : State n) :
    applyGate (Gate.cx c t) ψ = fun σ => ψ (cxMap c t σ) := rfl

theorem applyGate_ccx_eq {n : ℕ} (c1 c2 t : Fin n) (ψ : State n) :
    applyGate (Gate.ccx c1 c2 t) ψ = fun σ => ψ (ccxMap c1 c2 t σ) := rfl

theorem applyGate_mcx_eq {n : ℕ} (cs : List (Fin n)) (t : Fin n) (ψ : State n) :
    applyGate (Gate.mcx cs t) ψ = fun σ => ψ (mcxMap cs t σ) := rfl

theorem flipMap_invol {n : ℕ} (q : Fin n) : Function.Involutive (flipMap q) := by
  intro σ; funext r
  rcases eq_or_ne r q with rfl | hr
  · simp [flipMap]
  · simp [flipMap, Function.update_noteq hr]

theorem cxMap_invol {n : ℕ} {c t : Fin n} (h : c ≠ t) :
    Function.Involutive (cxMap c t) := by
  intro σ; funext r
  rcases eq_or_ne r t with rfl | hr
  · simp only [cxMap, Function.update_same, Function.update_noteq h]
    cases σ r <;> cases σ c <;> rfl
  · simp [cxMap, Function.update_noteq hr]

theorem ccxMap_invol {n : ℕ} {c1 c2 t : Fin n} (h1 : c1 ≠ t) (h2 : c2 ≠ t) :
    Function.Involutive (ccxMap c1 c2 t) := by
  intro σ; funext r
  rcases eq_or_ne r t with rfl | hr
  · simp only [ccxMap, Function.update_same, Function.update_noteq h1,
      Function.update_noteq h2]
    cases σ r <;> cases σ c1 <;> cases σ c2 <;> rfl
  · simp [ccxMap, Function.update_noteq hr]

theorem all_update_of_not_mem {n : ℕ} {cs : List (Fin n)} {t : Fin n} (h : t ∉ cs)
    (σ : Basis n) (v : Bool) :
    (cs.all fun c => Function.update σ t v c) = cs.all fun c => σ c := by
  induction cs with
  | nil => rfl
  | cons a l ih =>
      have ha : a ≠ t := fun hat => h (hat ▸ List.mem_cons_self a l)
      have hl : t ∉ l := fun hl' => h (List.mem_cons_of_mem a hl')
      simp [List.all_cons, Function.update_noteq ha, ih hl]

theorem mcxMap_invol {n : ℕ} {cs : List (Fin n)} {t : Fin n} (h : t ∉ cs) :
    Function.Involutive (mcxMap cs t) := by
  intro σ; funext r
  rcases eq_or_ne r t with rfl | hr
  · simp only [mcxMap, Function.update_same, all_update_of_not_mem h]
    cases σ r <;> cases cs.all fun c => σ c <;> rfl
  · simp [mcxMap, Function.update_noteq hr]

/-- Precomposing a basis state with an involutive basis permutation moves the
permutation onto the labelled basis vector. -/
theorem comp_basisState {n : ℕ} {g : Basis n → Basis n} (hg : Function.Involutive g)
    (b : Basis n) :
    (fun σ => basisState b (g σ)) = basisState (g b) := by
  funext σ
  simp only [basisState, hg.eq_iff]

theorem applyGate_x_basis {n : ℕ} (q : Fin n) (b : Basis n) :
    applyGate (Gate.x q) (basisState b) = basisState (flipMap q b) :=
  comp_basisState (flipMap_invol q) b

theorem applyGate_cx_basis {n : ℕ} {c t : Fin n} (h : c ≠ t) (b : Basis n) :
    applyGate (Gate.cx c t) (basisState b) = basisState (cxMap c t b) :=
  comp_basisState (cxMap_invol h) b

theorem applyGate_ccx_basis {n : ℕ} {c1 c2 t : Fin n} (h1 : c1 ≠ t) (h2 : c2 ≠ t)
    (b : Basis n) :
    applyGate (Gate.ccx c1 c2 t) (basisState b) = basisState (ccxMap c1 c2 t b) :=
  comp_basisState (ccxMap_invol h1 h2) b

theorem applyGate_mcx_basis {n : ℕ} {cs : List (Fin n)} {t : Fin n} (h : t ∉ cs)
    (b : Basis n) :
    applyGate (Gate.mcx cs t) (basisState b) = basisState (mcxMap cs t b) :=
  comp_basisState (mcxMap_invol h) b

/-! ## Diagonal gate forms -/

theorem applyGate_p_eq {n : ℕ} (θ : ℝ) (q : Fin n) (ψ : State n) :
    applyGate (Gate.p θ q) ψ =
      fun σ => (if σ q then Complex.exp (θ * Complex.I) else 1) * ψ σ := by
  funext σ; simp only [applyGate]; split_ifs <;> simp

theorem applyGate_cp_eq {n : ℕ} (θ : ℝ) (c t : Fin n) (ψ : State n) :
    applyGate (Gate.cp θ c t) ψ =
      fun σ => (if σ c && σ t then Complex.exp (θ * Complex.I) else 1) * ψ σ := by
  funext σ; simp only [applyGate]; split_ifs <;> simp

theorem applyCircuit_singleton {n : ℕ} (g : Gate n) (ψ : State n) :
    applyCircuit [g] ψ = applyGate g ψ := rfl

/-! ## Loop lemmas on the register layout -/

section Loops

variable {w : ℕ}

/-- Generic per-bit loop over memory positions: if each iteration `gsF j`
rewrites memory bit `j` through `f (pv j) b (mv j)` on basis states, the whole
loop rewrites every visited bit. -/
theorem flatMap_loop_delta (gsF : Fin w → List (Gate (2 * w + 2)))
    (f : Bool → Bool → Bool → Bool)
    (hstep : ∀ (j : Fin w) (pv : Fin w → Bool) (a b : Bool) (mv : Fin w → Bool),
      applyCircuit (gsF j) (basisState (mkB pv a b mv)) =
        basisState (mkB pv a b (Function.update mv j (f (pv j) b (mv j))))) :
    ∀ (L : List (Fin w)), L.Nodup →
      ∀ (pv : Fin w → Bool) (a b : Bool) (mv : Fin w → Bool),
        applyCircuit (L.flatMap gsF) (basisState (mkB pv a b mv)) =
          basisState (mkB pv a b fun j => if j ∈ L then f (pv j) b (mv j) else mv j) := by
  intro L
  induction L with
  | nil => intro _ pv a b mv; simp
  | cons j0 rest ih =>
      intro hL pv a b mv
      obtain ⟨hj0, hrest⟩ := List.nodup_cons.mp hL
      rw [List.flatMap_cons, applyCircuit_append, hstep, ih hrest]
      have harg : (fun j => if j ∈ rest then
            f (pv j) b (Function.update mv j0 (f (pv j0) b (mv j0)) j)
          else Function.update mv j0 (f (pv j0) b (mv j0)) j)
          = fun j => if j ∈ j0 :: rest then f (pv j) b (mv j) else mv j := by
        funext j
        rcases eq_or_ne j j0 with rfl | hj
        · simp [hj0]
        · simp [Function.update_noteq hj, List.mem_cons, hj]
      rw [harg]

/-- One `ccx` iteration of storage step 2 (and its reversal, step 8). -/
theorem ccx_step_delta (j : Fin w) (pv : Fin w → Bool) (a b : Bool) (mv : Fin w → Bool) :
    applyCircuit [Gate.ccx (pIdx w j) (u1I w) (mIdx w j)] (basisState (mkB pv a b mv)) =
      basisState (mkB pv a b (Function.update mv j (xor (mv j) (pv j && b)))) := by
  rw [applyCircuit_singleton, applyGate_ccx_basis (pIdx_ne_mIdx j j) (u1I_ne_mIdx j)]
  unfold ccxMap
  rw [mkB_pIdx, mkB_u1I, mkB_mIdx, update_mkB_mIdx]

/-- One `cx`-then-`x` iteration of storage step 3 (equality detector),
also retrieval step 1. -/
theorem cxx_step_delta (j : Fin w) (pv : Fin w → Bool) (a b : Bool) (mv : Fin w → Bool) :
    applyCircuit [Gate.cx (pIdx w j) (mIdx w j), Gate.x (mIdx w j)]
        (basisState (mkB pv a b mv)) =
      basisState (mkB pv a b (Function.update mv j (!(xor (mv j) (pv j))))) := by
  have h1 : applyCircuit [Gate.cx (pIdx w j) (mIdx w j), Gate.x (mIdx w j)]
      (basisState (mkB pv a b mv)) =
      applyGate (Gate.x (mIdx w j)) (applyGate (Gate.cx (pIdx w j) (mIdx w j))
        (basisState (mkB pv a b mv))) := rfl
  rw [h1, applyGate_cx_basis (pIdx_ne_mIdx j j)]
  have h2 : cxMap (pIdx w j) (mIdx w j) (mkB pv a b mv) =
      mkB pv a b (Function.update mv j (xor (mv j) (pv j))) := by
    unfold cxMap
    rw [mkB_pIdx, mkB_mIdx, update_mkB_mIdx]
  rw [h2, applyGate_x_basis]
  unfold flipMap
  rw [mkB_mIdx, update_mkB_mIdx, Function.update_idem, Function.update_same]

/-- One `x`-then-`cx` iteration of storage step 7 (and retrieval step 3),
the reversal of the equality detector. -/
theorem xcx_step_delta (j : Fin w) (pv : Fin w → Bool) (a b : Bool) (mv : Fin w → Bool) :
    applyCircuit [Gate.x (mIdx w j), Gate.cx (pIdx w j) (mIdx w j)]
        (basisState (mkB pv a b mv)) =
      basisState (mkB pv a b (Function.update mv j (xor (!(mv j)) (pv j)))) := by
  have h1 : applyCircuit [Gate.x (mIdx w j), Gate.cx (pIdx w j) (mIdx w j)]
      (basisState (mkB pv a b mv)) =
      applyGate (Gate.cx (pIdx w j) (mIdx w j)) (applyGate (Gate.x (mIdx w j))
        (basisState (mkB pv a b mv))) := rfl
  rw [h1, applyGate_x_basis]
  have h2 : flipMap (mIdx w j) (mkB pv a b mv) =
      mkB pv a b (Function.update mv j (!(mv j))) := by
    unfold flipMap
    rw [mkB_mIdx, update_mkB_mIdx]
  rw [h2, applyGate_cx_basis (pIdx_ne_mIdx j j)]
  unfold cxMap
  rw [mkB_pIdx, mkB_mIdx, update_mkB_mIdx, Function.update_idem, Function.update_same]

/-- Whether all memory bits are set. -/
def allB {w : ℕ} (mv : Fin w → Bool) : Bool := (List.finRange w).all fun j => mv j

theorem allB_eq_true_iff {mv : Fin w → Bool} : allB mv = true ↔ ∀ j, mv j = true := by
  simp [allB, List.all_eq_true, List.mem_finRange]

theorem all_map_general {α β : Type _} (l : List α) (f : α → β) (p : β → Bool) :
    (l.map f).all p = l.all fun a => p (f a) := by
  induction l with
  | nil => rfl
  | cons a l ih => simp [List.all_cons, ih]

theorem u0I_not_mem_mReg : u0I w ∉ mReg w := by
  intro h
  obtain ⟨j, _, hj⟩ := List.mem_map.mp h
  exact (u0I_ne_mIdx j) hj.symm

/-- The `mcx` gate of storage steps 4 and 6 on a layout basis state. -/
theorem mcx_mkB_delta (pv : Fin w → Bool) (a b : Bool) (mv : Fin w → Bool) :
    applyGate (Gate.mcx (mReg w) (u0I w)) (basisState (mkB pv a b mv)) =
      basisState (mkB pv (xor a (allB mv)) b mv) := by
  rw [applyGate_mcx_basis u0I_not_mem_mReg]
  unfold mcxMap
  have hall : ((mReg w).all fun c => mkB pv a b mv c) = allB mv := by
    unfold mReg allB
    rw [all_map_general]
    simp only [mkB_mIdx]
  rw [mkB_u0I, hall, update_mkB_u0I]

theorem map_eq_flatMap {α β : Type _} (f : α → β) (l : List α) :
    l.map f = l.flatMap fun a => [f a] := by
  induction l with
  | nil => rfl
  | cons a l ih => simp [ih]

theorem flatMap_map_general {α β γ : Type _} (l : List α) (f : α → β) (g : β → List γ) :
    (l.map f).flatMap g = l.flatMap fun a => g (f a) := by
  induction l with
  | nil => rfl
  | cons a l ih => simp [ih]

theorem pReg_length : (pReg w).length = w := by simp [pReg]

theorem mReg_length : (mReg w).length = w := by simp [mReg]

theorem pReg_get? (idx : ℕ) :
    (pReg w).get? idx = if h : idx < w then some (pIdx w ⟨idx, h⟩) else none := by
  by_cases h : idx < w
  · rw [dif_pos h, pReg, List.get?_eq_getElem?, List.getElem?_map,
      List.getElem?_eq_getElem (by simpa [List.length_finRange] using h)]
    simp [List.getElem_finRange, Fin.cast_mk]
  · rw [dif_neg h, pReg, List.get?_eq_none.mpr]
    simp [List.length_finRange]
    omega

/-- A bit-position walk that has reached position `k` leaves the closed-form
pattern content unchanged when no in-range set bit sits at `k`. -/
theorem stable_if_lt (pv : Fin w → Bool) (g : ℕ → Bool) (k : ℕ)
    (hg : w ≤ k ∨ g k = false) :
    (fun j : Fin w => if j.val < k then xor (pv j) (g j.val) else pv j) =
      fun j : Fin w => if j.val < k + 1 then xor (pv j) (g j.val) else pv j := by
  funext j
  by_cases h1 : j.val < k
  · rw [if_pos h1, if_pos (by omega)]
  · by_cases h2 : j.val < k + 1
    · have hjk : j.val = k := by omega
      have hgk : g j.val = false := by
        rcases hg with hw | hf
        · have := j.isLt; omega
        · rw [hjk, hf]
      rw [if_neg h1, if_pos h2, hgk]
      cases pv j <;> rfl
    · rw [if_neg h1, if_neg h2]

/-- The pattern-codec walk over bit positions `0, …, k-1` on a layout basis
state: every visited pattern bit is xored with the corresponding bit of the
value. -/
theorem pauli_range_delta (val : ℕ) (k : ℕ) (pv : Fin w → Bool) (a b : Bool)
    (mv : Fin w → Bool) :
    applyCircuit ((List.range k).flatMap fun idx =>
        if val.testBit idx then (((pReg w).get? idx).map Gate.x).toList else [])
      (basisState (mkB pv a b mv)) =
      basisState (mkB (fun j => if j.val < k then xor (pv j) (val.testBit j.val) else pv j)
        a b mv) := by
  induction k with
  | zero =>
      simp
  | succ k ih =>
      rw [List.range_succ, List.flatMap_append, applyCircuit_append, ih]
      simp only [List.flatMap_cons, List.flatMap_nil, List.append_nil]
      by_cases hb : val.testBit k = true
      · rw [if_pos hb, pReg_get?]
        by_cases hk : k < w
        · rw [dif_pos hk]
          simp only [Option.map_some', Option.toList_some]
          rw [applyCircuit_singleton, applyGate_x_basis]
          refine congrArg basisState ?_
          unfold flipMap
          rw [mkB_pIdx, update_mkB_pIdx, mkB_eq_mkB_iff]
          refine ⟨?_, rfl, rfl, rfl⟩
          funext j
          rcases eq_or_ne j (⟨k, hk⟩ : Fin w) with rfl | hj
          · simp only [Function.update_same]
            simp [hb, Nat.lt_succ_self]
          · rw [Function.update_noteq hj]
            have hjk : j.val ≠ k := fun hv => hj (Fin.ext hv)
            by_cases h1 : j.val < k
            · rw [if_pos h1, if_pos (by omega)]
            · rw [if_neg h1, if_neg (by omega)]
        · rw [dif_neg hk]
          simp only [Option.map_none', Option.toList_none, applyCircuit_nil]
          exact congrArg basisState
            (mkB_eq_mkB_iff.mpr ⟨stable_if_lt pv _ k (Or.inl (by omega)), rfl, rfl, rfl⟩)
      · rw [if_neg hb, applyCircuit_nil]
        have hbf : val.testBit k = false := by
          revert hb; cases val.testBit k <;> simp
        exact congrArg basisState
          (mkB_eq_mkB_iff.mpr ⟨stable_if_lt pv _ k (Or.inr hbf), rfl, rfl, rfl⟩)

/-- Action of the (fitting-value) codec gate list on a layout basis state. -/
theorem pauliGates_pReg_delta (val : ℕ) (pv : Fin w → Bool) (a b : Bool)
    (mv : Fin w → Bool) :
    applyCircuit (pauliGates val (pReg w)) (basisState (mkB pv a b mv)) =
      basisState (mkB (fun j => xor (pv j) (bitsOf w val j)) a b mv) := by
  have hlen : pauliGates val (pReg w) =
      (List.range (padLen val w)).flatMap fun idx =>
        if val.testBit idx then (((pReg w).get? idx).map Gate.x).toList else [] := by
    rw [pauliGates, pReg_length]
  rw [hlen, pauli_range_delta]
  refine congrArg basisState (mkB_eq_mkB_iff.mpr ⟨?_, rfl, rfl, rfl⟩)
  funext j
  have hj : j.val < padLen val w := by
    have h1 := j.isLt
    have h2 : w ≤ padLen val w := le_max_left _ _
    omega
  rw [if_pos hj]
  rfl

/-! ## Storage loop closed forms -/

theorem zip_pm : (pReg w).zip (mReg w) =
    (List.finRange w).map fun j => (pIdx w j, mIdx w j) := by
  rw [pReg, mReg, List.zip_map']

theorem storage_loop1_delta (pv : Fin w → Bool) (a b : Bool) (mv : Fin w → Bool) :
    applyCircuit (((pReg w).zip (mReg w)).map fun q => Gate.ccx q.1 (u1I w) q.2)
        (basisState (mkB pv a b mv)) =
      basisState (mkB pv a b fun j => xor (mv j) (pv j && b)) := by
  have h1 : (((pReg w).zip (mReg w)).map fun q => Gate.ccx q.1 (u1I w) q.2) =
      (List.finRange w).flatMap fun j => [Gate.ccx (pIdx w j) (u1I w) (mIdx w j)] := by
    rw [zip_pm, List.map_map, map_eq_flatMap]
    rfl
  rw [h1, flatMap_loop_delta _ (fun pj b mj => xor mj (pj && b))
    (fun j pv a b mv => ccx_step_delta j pv a b mv)
    (List.finRange w) (List.nodup_finRange w)]
  exact congrArg basisState (mkB_eq_mkB_iff.mpr
    ⟨rfl, rfl, rfl, funext fun j => if_pos (List.mem_finRange j)⟩)

theorem storage_loop2_delta (pv : Fin w → Bool) (a b : Bool) (mv : Fin w → Bool) :
    applyCircuit (((pReg w).zip (mReg w)).flatMap fun q => [Gate.cx q.1 q.2, Gate.x q.2])
        (basisState (mkB pv a b mv)) =
      basisState (mkB pv a b fun j => !(xor (mv j) (pv j))) := by
  have h1 : (((pReg w).zip (mReg w)).flatMap fun q => [Gate.cx q.1 q.2, Gate.x q.2]) =
      (List.finRange w).flatMap fun j => [Gate.cx (pIdx w j) (mIdx w j), Gate.x (mIdx w j)] := by
    rw [zip_pm, flatMap_map_general]
  rw [h1, flatMap_loop_delta _ (fun pj b mj => !(xor mj pj))
    (fun j pv a b mv => cxx_step_delta j pv a b mv)
    (List.finRange w) (List.nodup_finRange w)]
  exact congrArg basisState (mkB_eq_mkB_iff.mpr
    ⟨rfl, rfl, rfl, funext fun j => if_pos (List.mem_finRange j)⟩)

theorem storage_loop6_delta (pv : Fin w → Bool) (a b : Bool) (mv : Fin w → Bool) :
    applyCircuit (((pReg w).zip (mReg w)).reverse.flatMap
        fun q => [Gate.x q.2, Gate.cx q.1 q.2])
        (basisState (mkB pv a b mv)) =
      basisState (mkB pv a b fun j => xor (!(mv j)) (pv j)) := by
  have h1 : (((pReg w).zip (mReg w)).reverse.flatMap fun q => [Gate.x q.2, Gate.cx q.1 q.2]) =
      (List.finRange w).reverse.flatMap
        fun j => [Gate.x (mIdx w j), Gate.cx (pIdx w j) (mIdx w j)] := by
    rw [zip_pm, ← List.map_reverse, flatMap_map_general]
  rw [h1, flatMap_loop_delta _ (fun pj b mj => xor (!mj) pj)
    (fun j pv a b mv => xcx_step_delta j pv a b mv)
    (List.finRange w).reverse (by simp [List.nodup_finRange])]
  exact congrArg basisState (mkB_eq_mkB_iff.mpr
    ⟨rfl, rfl, rfl, funext fun j =>
      if_pos (by simp [List.mem_reverse, List.mem_finRange])⟩)

theorem storage_loop7_delta (pv : Fin w → Bool) (a b : Bool) (mv : Fin w → Bool) :
    applyCircuit (((pReg w).zip (mReg w)).reverse.map fun q => Gate.ccx q.1 (u1I w) q.2)
        (basisState (mkB pv a b mv)) =
      basisState (mkB pv a b fun j => xor (mv j) (pv j && b)) := by
  have h1 : (((pReg w).zip (mReg w)).reverse.map fun q => Gate.ccx q.1 (u1I w) q.2) =
      (List.finRange w).reverse.flatMap
        fun j => [Gate.ccx (pIdx w j) (u1I w) (mIdx w j)] := by
    rw [zip_pm, ← List.map_reverse, List.map_map, map_eq_flatMap]
    rfl
  rw [h1, flatMap_loop_delta _ (fun pj b mj => xor mj (pj && b))
    (fun j pv a b mv => ccx_step_delta j pv a b mv)
    (List.finRange w).reverse (by simp [List.nodup_finRange])]
  exact congrArg basisState (mkB_eq_mkB_iff.mpr
    ⟨rfl, rfl, rfl, funext fun j =>
      if_pos (by simp [List.mem_reverse, List.mem_finRange])⟩)

/-! ## The controlled rotation on layout basis states -/

theorem cry_mkB_inactive (θ : ℝ) (pv : Fin w → Bool) (b : Bool) (mv : Fin w → Bool) :
    applyGate (Gate.cry θ (u0I w) (u1I w)) (basisState (mkB pv false b mv)) =
      basisState (mkB pv false b mv) := by
  funext σ
  obtain ⟨qp, qa, qb, qm, rfl⟩ : ∃ qp qa qb qm, σ = mkB qp qa qb qm :=
    ⟨_, _, _, _, eq_mkB σ⟩
  simp only [applyGate, mkB_u0I, mkB_u1I, update_mkB_u1I, basisState, mkB_eq_mkB_iff]
  cases qa <;> cases qb <;> simp

theorem cry_mkB_active_one (θ : ℝ) (pv : Fin w → Bool) (mv : Fin w → Bool) :
    applyGate (Gate.cry θ (u0I w) (u1I w)) (basisState (mkB pv true true mv)) =
      (-(Real.sin (θ / 2)) : ℂ) • basisState (mkB pv true false mv) +
        ((Real.cos (θ / 2)) : ℂ) • basisState (mkB pv true true mv) := by
  funext σ
  obtain ⟨qp, qa, qb, qm, rfl⟩ : ∃ qp qa qb qm, σ = mkB qp qa qb qm :=
    ⟨_, _, _, _, eq_mkB σ⟩
  simp only [applyGate, mkB_u0I, mkB_u1I, update_mkB_u1I, basisState, mkB_eq_mkB_iff,
    Pi.add_apply, Pi.smul_apply, smul_eq_mul]
  cases qa <;> cases qb <;>
    by_cases hp : qp = pv <;> by_cases hm : qm = mv <;>
      simp [hp, hm]

theorem cry_mkB_active_zero (θ : ℝ) (pv : Fin w → Bool) (mv : Fin w → Bool) :
    applyGate (Gate.cry θ (u0I w) (u1I w)) (basisState (mkB pv true false mv)) =
      ((Real.cos (θ / 2)) : ℂ) • basisState (mkB pv true false mv) +
        ((Real.sin (θ / 2)) : ℂ) • basisState (mkB pv true true mv) := by
  funext σ
  obtain ⟨qp, qa, qb, qm, rfl⟩ : ∃ qp qa qb qm, σ = mkB qp qa qb qm :=
    ⟨_, _, _, _, eq_mkB σ⟩
  simp only [applyGate, mkB_u0I, mkB_u1I, update_mkB_u1I, basisState, mkB_eq_mkB_iff,
    Pi.add_apply, Pi.smul_apply, smul_eq_mul]
  cases qa <;> cases qb <;>
    by_cases hp : qp = pv <;> by_cases hm : qm = mv <;>
      simp [hp, hm]

/-! ## The per-pattern storage step on the invariant states -/

/-- The all-ones register content. -/
def onesF (w : ℕ) : Fin w → Bool := fun _ => true

theorem allB_onesF : allB (onesF w) = true := allB_eq_true_iff.mpr fun _ => rfl

theorem allB_eq_false_of_ne {mv : Fin w → Bool} (val : ℕ) (hmv : mv ≠ bitsOf w val) :
    allB (fun j => !(xor (mv j) (bitsOf w val j))) = false := by
  apply Bool.eq_false_iff.mpr
  intro hall
  apply hmv
  funext j
  have hj := allB_eq_true_iff.mp hall j
  revert hj
  cases mv j <;> cases bitsOf w val j <;> simp

/-- Effect of one storage iteration on the still-processing branch
`|p = 0, u0 = 0, u1 = 1, m = 0⟩`: the branch splits into a newly frozen copy
of the pattern (with `u1 = 0` and the pattern value written into `m`) and the
surviving processing branch, with the `RY` weights of the scheduled angle. -/
theorem storage_step_processing (val i len_ps : ℕ) :
    applyCircuit (storage_step val (pReg w) (u0I w) (u1I w) (mReg w) i len_ps)
        (basisState (mkB (zf w) false true (zf w))) =
      (-(Real.sin (find_angle (len_ps + 1 - i) / 2)) : ℂ) •
          basisState (mkB (zf w) false false (bitsOf w val)) +
        ((Real.cos (find_angle (len_ps + 1 - i) / 2)) : ℂ) •
          basisState (mkB (zf w) false true (zf w)) := by
  unfold storage_step controlled_si
  simp only [applyCircuit_append, applyCircuit_singleton]
  rw [pauliGates_pReg_delta,
    show (fun j => xor (zf w j) (bitsOf w val j)) = bitsOf w val from
      funext fun j => by simp [zf]]
  rw [storage_loop1_delta,
    show (fun j => xor (zf w j) (bitsOf w val j && true)) = bitsOf w val from
      funext fun j => by simp [zf]]
  rw [storage_loop2_delta,
    show (fun j => !(xor (bitsOf w val j) (bitsOf w val j))) = onesF w from
      funext fun j => by simp [onesF]]
  rw [mcx_mkB_delta, allB_onesF,
    show xor false true = true from rfl]
  rw [cry_mkB_active_one]
  rw [applyGate_add, applyGate_smul, applyGate_smul,
    mcx_mkB_delta, mcx_mkB_delta, allB_onesF,
    show xor true true = false from rfl]
  rw [applyCircuit_add, applyCircuit_smul, applyCircuit_smul,
    storage_loop6_delta, storage_loop6_delta,
    show (fun j => xor (!(onesF w j)) (bitsOf w val j)) = bitsOf w val from
      funext fun j => by simp [onesF]]
  rw [applyCircuit_add, applyCircuit_smul, applyCircuit_smul,
    storage_loop7_delta, storage_loop7_delta,
    show (fun j => xor (bitsOf w val j) (bitsOf w val j && false)) = bitsOf w val from
      funext fun j => by simp,
    show (fun j => xor (bitsOf w val j) (bitsOf w val j && true)) = zf w from
      funext fun j => by simp [zf]]
  rw [applyCircuit_add, applyCircuit_smul, applyCircuit_smul,
    pauliGates_pReg_delta, pauliGates_pReg_delta,
    show (fun j => xor (bitsOf w val j) (bitsOf w val j)) = zf w from
      funext fun j => by simp [zf]]

/-- Effect of one storage iteration on a frozen branch holding a different
pattern value in `m` (with `u1 = 0`): the branch is left exactly unchanged. -/
theorem storage_step_frozen_ne (val i len_ps : ℕ) (mv : Fin w → Bool)
    (hmv : mv ≠ bitsOf w val) :
    applyCircuit (storage_step val (pReg w) (u0I w) (u1I w) (mReg w) i len_ps)
        (basisState (mkB (zf w) false false mv)) =
      basisState (mkB (zf w) false false mv) := by
  unfold storage_step controlled_si
  simp only [applyCircuit_append, applyCircuit_singleton]
  rw [pauliGates_pReg_delta,
    show (fun j => xor (zf w j) (bitsOf w val j)) = bitsOf w val from
      funext fun j => by simp [zf]]
  rw [storage_loop1_delta,
    show (fun j => xor (mv j) (bitsOf w val j && false)) = mv from
      funext fun j => by simp]
  rw [storage_loop2_delta]
  rw [mcx_mkB_delta, allB_eq_false_of_ne val hmv,
    show xor false false = false from rfl]
  rw [cry_mkB_inactive]
  rw [mcx_mkB_delta, allB_eq_false_of_ne val hmv,
    show xor false false = false from rfl]
  rw [storage_loop6_delta,
    show (fun j => xor (!(!(xor (mv j) (bitsOf w val j)))) (bitsOf w val j)) = mv from
      funext fun j => by cases mv j <;> cases bitsOf w val j <;> rfl]
  rw [storage_loop7_delta,
    show (fun j => xor (mv j) (bitsOf w val j && false)) = mv from
      funext fun j => by simp]
  rw [pauliGates_pReg_delta,
    show (fun j => xor (bitsOf w val j) (bitsOf w val j)) = zf w from
      funext fun j => by simp [zf]]

/-- Effect of one storage iteration on a frozen branch that already holds the
very pattern being stored: the branch is split by the rotation, leaking
amplitude back onto the processing configuration.  (This is the behaviour that
makes storing a duplicate pattern deviate from the intended superposition.) -/
theorem storage_step_frozen_eq (val i len_ps : ℕ) :
    applyCircuit (storage_step val (pReg w) (u0I w) (u1I w) (mReg w) i len_ps)
        (basisState (mkB (zf w) false false (bitsOf w val))) =
      ((Real.cos (find_angle (len_ps + 1 - i) / 2)) : ℂ) •
          basisState (mkB (zf w) false false (bitsOf w val)) +
        ((Real.sin (find_angle (len_ps + 1 - i) / 2)) : ℂ) •
          basisState (mkB (zf w) false true (zf w)) := by
  unfold storage_step controlled_si
  simp only [applyCircuit_append, applyCircuit_singleton]
  rw [pauliGates_pReg_delta,
    show (fun j => xor (zf w j) (bitsOf w val j)) = bitsOf w val from
      funext fun j => by simp [zf]]
  rw [storage_loop1_delta,
    show (fun j => xor (bitsOf w val j) (bitsOf w val j && false)) = bitsOf w val from
      funext fun j => by simp]
  rw [storage_loop2_delta,
    show (fun j => !(xor (bitsOf w val j) (bitsOf w val j))) = onesF w from
      funext fun j => by simp [onesF]]
  rw [mcx_mkB_delta, allB_onesF,
    show xor false true = true from rfl]
  rw [cry_mkB_active_zero]
  rw [applyGate_add, applyGate_smul, applyGate_smul,
    mcx_mkB_delta, mcx_mkB_delta, allB_onesF,
    show xor true true = false from rfl]
  rw [applyCircuit_add, applyCircuit_smul, applyCircuit_smul,
    storage_loop6_delta, storage_loop6_delta,
    show (fun j => xor (!(onesF w j)) (bitsOf w val j)) = bitsOf w val from
      funext fun j => by simp [onesF]]
  rw [applyCircuit_add, applyCircuit_smul, applyCircuit_smul,
    storage_loop7_delta, storage_loop7_delta,
    show (fun j => xor (bitsOf w val j) (bitsOf w val j && false)) = bitsOf w val from
      funext fun j => by simp,
    show (fun j => xor (bitsOf w val j) (bitsOf w val j && true)) = zf w from
      funext fun j => by simp [zf]]
  rw [applyCircuit_add, applyCircuit_smul, applyCircuit_smul,
    pauliGates_pReg_delta, pauliGates_pReg_delta,
    show (fun j => xor (bitsOf w val j) (bitsOf w val j)) = zf w from
      funext fun j => by simp [zf]]

/-! ## The storage invariant -/

theorem applyGate_zero {n : ℕ} (g : Gate n) : applyGate g (0 : State n) = 0 := by
  have h := applyGate_smul g 0 (0 : State n)
  simpa using h

theorem applyCircuit_zero {n : ℕ} (gs : List (Gate n)) :
    applyCircuit gs (0 : State n) = 0 := by
  induction gs with
  | nil => rfl
  | cons g gs ih => rw [applyCircuit_cons, applyGate_zero, ih]

theorem applyCircuit_sum {n : ℕ} {ι : Type _} [DecidableEq ι] (gs : List (Gate n))
    (s : Finset ι) (f : ι → State n) :
    applyCircuit gs (∑ t ∈ s, f t) = ∑ t ∈ s, applyCircuit gs (f t) := by
  induction s using Finset.induction with
  | empty => simp [applyCircuit_zero]
  | insert hx ih => rw [Finset.sum_insert hx, Finset.sum_insert hx, applyCircuit_add, ih]

theorem bitsOf_inj {v v' : ℕ} (hv : v < 2 ^ w) (hv' : v' < 2 ^ w)
    (h : bitsOf w v = bitsOf w v') : v = v' := by
  apply Nat.eq_of_testBit_eq
  intro i
  by_cases hi : i < w
  · exact congrFun h ⟨i, hi⟩
  · have hw : w ≤ i := le_of_not_lt hi
    have hpow : (2 : ℕ) ^ w ≤ 2 ^ i := Nat.pow_le_pow_right (by norm_num) hw
    rw [Nat.testBit_eq_false_of_lt (lt_of_lt_of_le hv hpow),
      Nat.testBit_eq_false_of_lt (lt_of_lt_of_le hv' hpow)]

theorem getD_mem (ps : List ℕ) (t : ℕ) (ht : t < ps.length) : ps.getD t 0 ∈ ps := by
  rw [List.getD_eq_getD_get?, List.get?_eq_get ht]
  simp only [Option.getD_some]
  exact List.get_mem ps t ht

theorem getD_ne_of_nodup {ps : List ℕ} (hnd : ps.Nodup) {t k : ℕ}
    (ht : t < ps.length) (hk : k < ps.length) (htk : t ≠ k) :
    ps.getD t 0 ≠ ps.getD k 0 := by
  intro h
  apply htk
  rw [List.getD_eq_getD_get?, List.get?_eq_get ht,
    List.getD_eq_getD_get?, List.get?_eq_get hk] at h
  simp only [Option.getD_some] at h
  have h' : ps.get ⟨t, ht⟩ = ps.get ⟨k, hk⟩ := h
  have := List.nodup_iff_injective_get.mp hnd h'
  exact congrArg Fin.val this

/-! ## Exact values of the rotation weights -/

theorem find_angle_div_two (j : ℕ) :
    find_angle j / 2 = -Real.arccos (Real.sqrt (((j : ℝ) - 1) / (j : ℝ))) := by
  unfold find_angle; ring

theorem sqrt_ratio_le_one (j : ℕ) : Real.sqrt (((j : ℝ) - 1) / (j : ℝ)) ≤ 1 := by
  rcases Nat.eq_zero_or_pos j with hj | hj
  · subst hj; norm_num
  · have hjr : (0 : ℝ) < (j : ℝ) := by exact_mod_cast hj
    rw [Real.sqrt_le_one, div_le_one hjr]
    linarith

theorem cos_find_angle_half (j : ℕ) :
    Real.cos (find_angle j / 2) = Real.sqrt (((j : ℝ) - 1) / (j : ℝ)) := by
  rw [find_angle_div_two, Real.cos_neg, Real.cos_arccos]
  · exact le_trans (by norm_num) (Real.sqrt_nonneg _)
  · exact sqrt_ratio_le_one j

theorem neg_sin_find_angle_half (j : ℕ) (hj : 1 ≤ j) :
    -Real.sin (find_angle j / 2) = Real.sqrt (1 / (j : ℝ)) := by
  rw [find_angle_div_two, Real.sin_neg, neg_neg, Real.sin_arccos]
  congr 1
  have hjr : (0 : ℝ) < (j : ℝ) := by exact_mod_cast hj
  have hnonneg : (0 : ℝ) ≤ ((j : ℝ) - 1) / (j : ℝ) := by
    apply div_nonneg _ (le_of_lt hjr)
    have : (1 : ℝ) ≤ (j : ℝ) := by exact_mod_cast hj
    linarith
  rw [Real.sq_sqrt hnonneg]
  field_simp

theorem coeff_freeze (N k : ℕ) (hk : k < N) :
    Real.sqrt (((N - k : ℕ) : ℝ) / (N : ℝ)) * Real.sqrt (1 / ((N - k : ℕ) : ℝ)) =
      1 / Real.sqrt (N : ℝ) := by
  have hNk : (0 : ℝ) < ((N - k : ℕ) : ℝ) := by
    have : 0 < N - k := by omega
    exact_mod_cast this
  have hN : (0 : ℝ) < (N : ℝ) := by
    have : 0 < N := by omega
    exact_mod_cast this
  rw [← Real.sqrt_mul (by positivity)]
  rw [show ((N - k : ℕ) : ℝ) / (N : ℝ) * (1 / ((N - k : ℕ) : ℝ)) = 1 / (N : ℝ) from by
    field_simp
    ring]
  rw [one_div, one_div, Real.sqrt_inv]

theorem coeff_keep (N k : ℕ) (hk : k < N) :
    Real.sqrt (((N - k : ℕ) : ℝ) / (N : ℝ)) *
        Real.sqrt ((((N - k : ℕ) : ℝ) - 1) / ((N - k : ℕ) : ℝ)) =
      Real.sqrt (((N - (k + 1) : ℕ) : ℝ) / (N : ℝ)) := by
  have hNk : (0 : ℝ) < ((N - k : ℕ) : ℝ) := by
    have : 0 < N - k := by omega
    exact_mod_cast this
  have hN : (0 : ℝ) < (N : ℝ) := by
    have : 0 < N := by omega
    exact_mod_cast this
  rw [← Real.sqrt_mul (by positivity)]
  congr 1
  have h2 : ((N - (k + 1) : ℕ) : ℝ) = ((N - k : ℕ) : ℝ) - 1 := by
    rw [Nat.cast_sub (by omega : k + 1 ≤ N), Nat.cast_sub (le_of_lt hk)]
    push_cast
    ring
  rw [h2]
  have hNk' : ((N - k : ℕ) : ℝ) ≠ 0 := ne_of_gt hNk
  have hN' : (N : ℝ) ≠ 0 := ne_of_gt hN
  field_simp
  ring

/-- The storage invariant: after running the per-pattern sequence on the first
`k` patterns of a distinct, fitting pattern list, the state is the uniform
superposition of the `k` frozen patterns at weight `1/sqrt(N)` together with
the surviving processing branch (`u1 = 1`, `m = 0`) at weight
`sqrt((N-k)/N)`. -/
theorem storage_loop_state (ps : List ℕ) (hnd : ps.Nodup)
    (hfit : ∀ v ∈ ps, v < 2 ^ w) (hN : 0 < ps.length) :
    ∀ k, k ≤ ps.length →
      applyCircuit ((ps.enum.take k).flatMap fun iv =>
          storage_step iv.2 (pReg w) (u0I w) (u1I w) (mReg w) (iv.1 + 1) ps.length)
        (basisState (mkB (zf w) false true (zf w))) =
      (∑ t ∈ Finset.range k, ((1 / Real.sqrt (ps.length : ℝ) : ℝ) : ℂ) •
          basisState (mkB (zf w) false false (bitsOf w (ps.getD t 0)))) +
        ((Real.sqrt (((ps.length - k : ℕ) : ℝ) / (ps.length : ℝ)) : ℝ) : ℂ) •
          basisState (mkB (zf w) false true (zf w)) := by
  intro k
  induction k with
  | zero =>
      intro _
      have hNne : ((ps.length : ℕ) : ℝ) ≠ 0 := by
        exact_mod_cast Nat.pos_iff_ne_zero.mp hN
      simp only [List.take_zero, List.flatMap_nil, applyCircuit_nil,
        Finset.range_zero, Finset.sum_empty, Nat.sub_zero, zero_add]
      rw [div_self hNne, Real.sqrt_one]
      simp
  | succ k ih =>
      intro hk1
      have hk : k < ps.length := hk1
      have hkd : ps.getD k 0 ∈ ps := getD_mem ps k hk
      have hgd : ps[k] = ps.getD k 0 := by
        simp [List.getD_eq_getElem?_getD, List.getElem?_eq_getElem hk]
      rw [List.take_succ, List.getElem?_enum, List.getElem?_eq_getElem hk]
      simp only [Option.map_some', Option.toList_some, List.flatMap_append,
        List.flatMap_cons, List.flatMap_nil, List.append_nil]
      rw [applyCircuit_append, ih (le_of_lt hk), hgd]
      rw [applyCircuit_add, applyCircuit_sum, applyCircuit_smul]
      have hsum : (∑ t ∈ Finset.range k,
          applyCircuit (storage_step (ps.getD k 0) (pReg w) (u0I w) (u1I w) (mReg w)
            (k + 1) ps.length)
            (((1 / Real.sqrt (ps.length : ℝ) : ℝ) : ℂ) •
              basisState (mkB (zf w) false false (bitsOf w (ps.getD t 0))))) =
          ∑ t ∈ Finset.range k, ((1 / Real.sqrt (ps.length : ℝ) : ℝ) : ℂ) •
            basisState (mkB (zf w) false false (bitsOf w (ps.getD t 0))) := by
        refine Finset.sum_congr rfl fun t htr => ?_
        have ht : t < ps.length := lt_trans (Finset.mem_range.mp htr) hk
        rw [applyCircuit_smul, storage_step_frozen_ne]
        intro heq
        exact getD_ne_of_nodup hnd ht hk (ne_of_lt (Finset.mem_range.mp htr))
          (bitsOf_inj (hfit _ (getD_mem ps t ht)) (hfit _ hkd) heq)
      rw [hsum, storage_step_processing,
        show ps.length + 1 - (k + 1) = ps.length - k from by omega]
      rw [smul_add, smul_smul, smul_smul]
      have hc1 : ((Real.sqrt (((ps.length - k : ℕ) : ℝ) / (ps.length : ℝ)) : ℝ) : ℂ) *
          (-(Real.sin (find_angle (ps.length - k) / 2)) : ℂ) =
          ((1 / Real.sqrt (ps.length : ℝ) : ℝ) : ℂ) := by
        have hreal : Real.sqrt (((ps.length - k : ℕ) : ℝ) / (ps.length : ℝ)) *
            (-Real.sin (find_angle (ps.length - k) / 2)) =
            1 / Real.sqrt (ps.length : ℝ) := by
          rw [neg_sin_find_angle_half (ps.length - k) (by omega)]
          exact coeff_freeze ps.length k hk
        exact_mod_cast hreal
      have hc2 : ((Real.sqrt (((ps.length - k : ℕ) : ℝ) / (ps.length : ℝ)) : ℝ) : ℂ) *
          ((Real.cos (find_angle (ps.length - k) / 2)) : ℂ) =
          ((Real.sqrt (((ps.length - (k + 1) : ℕ) : ℝ) / (ps.length : ℝ)) : ℝ) : ℂ) := by
        have hreal : Real.sqrt (((ps.length - k : ℕ) : ℝ) / (ps.length : ℝ)) *
            Real.cos (find_angle (ps.length - k) / 2) =
            Real.sqrt (((ps.length - (k + 1) : ℕ) : ℝ) / (ps.length : ℝ)) := by
          rw [cos_find_angle_half (ps.length - k)]
          exact coeff_keep ps.length k hk
        exact_mod_cast hreal
      rw [hc1, hc2, Finset.sum_range_succ, ← add_assoc]

/-! ## Pointwise form of the retrieval sequence -/

/-- Argument-side composite of a per-position family of basis maps. -/
def permComp (τ : Fin w → Basis (2 * w + 2) → Basis (2 * w + 2)) :
    List (Fin w) → Basis (2 * w + 2) → Basis (2 * w + 2)
  | [], σ => σ
  | j :: rest, σ => τ j (permComp τ rest σ)

theorem flatMap_loop_pointwise (gsF : Fin w → List (Gate (2 * w + 2)))
    (τ : Fin w → Basis (2 * w + 2) → Basis (2 * w + 2))
    (hstep : ∀ (j : Fin w) (ψ : State (2 * w + 2)),
      applyCircuit (gsF j) ψ = fun σ => ψ (τ j σ)) :
    ∀ (L : List (Fin w)) (ψ : State (2 * w + 2)) (σ : Basis (2 * w + 2)),
      applyCircuit (L.flatMap gsF) ψ σ = ψ (permComp τ L σ) := by
  intro L
  induction L with
  | nil => intro ψ σ; rfl
  | cons j rest ih =>
      intro ψ σ
      rw [List.flatMap_cons, applyCircuit_append, hstep, ih]
      rfl

theorem permComp_mkB (τ : Fin w → Basis (2 * w + 2) → Basis (2 * w + 2))
    (f : Bool → Bool → Bool → Bool)
    (hτ : ∀ (j : Fin w) pv a b mv,
      τ j (mkB pv a b mv) = mkB pv a b (Function.update mv j (f (pv j) b (mv j)))) :
    ∀ (L : List (Fin w)), L.Nodup → ∀ pv a b mv,
      permComp τ L (mkB pv a b mv) =
        mkB pv a b fun j => if j ∈ L then f (pv j) b (mv j) else mv j := by
  intro L
  induction L with
  | nil =>
      intro _ pv a b mv
      simp [permComp]
  | cons j0 rest ih =>
      intro hL pv a b mv
      obtain ⟨hj0, hrest⟩ := List.nodup_cons.mp hL
      rw [permComp, ih hrest, hτ]
      rw [mkB_eq_mkB_iff]
      refine ⟨rfl, rfl, rfl, ?_⟩
      funext j
      rcases eq_or_ne j j0 with rfl | hj
      · simp [hj0]
      · simp [Function.update_noteq hj, List.mem_cons, hj]

/-- Argument-side basis map of one `cx`-then-`x` compare iteration. -/
def cmpStep (j : Fin w) (σ : Basis (2 * w + 2)) : Basis (2 * w + 2) :=
  cxMap (pIdx w j) (mIdx w j) (flipMap (mIdx w j) σ)

/-- Argument-side basis map of one `x`-then-`cx` uncompare iteration. -/
def cmpStepRev (j : Fin w) (σ : Basis (2 * w + 2)) : Basis (2 * w + 2) :=
  flipMap (mIdx w j) (cxMap (pIdx w j) (mIdx w j) σ)

/-- The memory content produced by the compare loop: bitwise equality of the
pattern/input bits with the memory bits. -/
def cmpM (pv mv : Fin w → Bool) : Fin w → Bool := fun j => !(xor (mv j) (pv j))

theorem cmpM_invol (pv mv : Fin w → Bool) : cmpM pv (cmpM pv mv) = mv := by
  funext j
  unfold cmpM
  cases mv j <;> cases pv j <;> rfl

theorem cmpStep_mkB (j : Fin w) (pv : Fin w → Bool) (a b : Bool) (mv : Fin w → Bool) :
    cmpStep j (mkB pv a b mv) =
      mkB pv a b (Function.update mv j (!(xor (mv j) (pv j)))) := by
  unfold cmpStep flipMap cxMap
  rw [mkB_mIdx, update_mkB_mIdx, mkB_pIdx, mkB_mIdx, update_mkB_mIdx,
    Function.update_idem, Function.update_same]
  rw [mkB_eq_mkB_iff]
  refine ⟨rfl, rfl, rfl, ?_⟩
  cases mv j <;> cases pv j <;> rfl

theorem cmpStepRev_mkB (j : Fin w) (pv : Fin w → Bool) (a b : Bool) (mv : Fin w → Bool) :
    cmpStepRev j (mkB pv a b mv) =
      mkB pv a b (Function.update mv j (!(xor (mv j) (pv j)))) := by
  unfold cmpStepRev flipMap cxMap
  rw [mkB_pIdx, mkB_mIdx, update_mkB_mIdx, mkB_mIdx, update_mkB_mIdx,
    Function.update_idem, Function.update_same]

/-- The compare loop of retrieval step 1, pointwise on layout basis states. -/
theorem loopF_apply (ψ : State (2 * w + 2)) (pv : Fin w → Bool) (a b : Bool)
    (mv : Fin w → Bool) :
    applyCircuit (((pReg w).zip (mReg w)).flatMap fun q => [Gate.cx q.1 q.2, Gate.x q.2])
        ψ (mkB pv a b mv) =
      ψ (mkB pv a b (cmpM pv mv)) := by
  have h1 : (((pReg w).zip (mReg w)).flatMap fun q => [Gate.cx q.1 q.2, Gate.x q.2]) =
      (List.finRange w).flatMap
        fun j => [Gate.cx (pIdx w j) (mIdx w j), Gate.x (mIdx w j)] := by
    rw [zip_pm, flatMap_map_general]
  rw [h1, flatMap_loop_pointwise
    (fun j => [Gate.cx (pIdx w j) (mIdx w j), Gate.x (mIdx w j)]) cmpStep
    (fun j ψ => rfl)]
  rw [permComp_mkB cmpStep (fun pj b mj => !(xor mj pj))
    (fun j pv a b mv => cmpStep_mkB j pv a b mv) (List.finRange w) (List.nodup_finRange w)]
  congr 1
  rw [mkB_eq_mkB_iff]
  refine ⟨rfl, rfl, rfl, ?_⟩
  funext j
  rw [if_pos (List.mem_finRange j)]
  rfl

/-- The uncompare loop of retrieval step 3, pointwise on layout basis states. -/
theorem loopFrev_apply (ψ : State (2 * w + 2)) (pv : Fin w → Bool) (a b : Bool)
    (mv : Fin w → Bool) :
    applyCircuit (((pReg w).zip (mReg w)).reverse.flatMap
        fun q => [Gate.x q.2, Gate.cx q.1 q.2]) ψ (mkB pv a b mv) =
      ψ (mkB pv a b (cmpM pv mv)) := by
  have h1 : (((pReg w).zip (mReg w)).reverse.flatMap fun q => [Gate.x q.2, Gate.cx q.1 q.2]) =
      (List.finRange w).reverse.flatMap
        fun j => [Gate.x (mIdx w j), Gate.cx (pIdx w j) (mIdx w j)] := by
    rw [zip_pm, ← List.map_reverse, flatMap_map_general]
  rw [h1, flatMap_loop_pointwise
    (fun j => [Gate.x (mIdx w j), Gate.cx (pIdx w j) (mIdx w j)]) cmpStepRev
    (fun j ψ => rfl)]
  rw [permComp_mkB cmpStepRev (fun pj b mj => !(xor mj pj))
    (fun j pv a b mv => cmpStepRev_mkB j pv a b mv) (List.finRange w).reverse
    (by simp [List.nodup_finRange])]
  congr 1
  rw [mkB_eq_mkB_iff]
  refine ⟨rfl, rfl, rfl, ?_⟩
  funext j
  rw [if_pos (by simp [List.mem_reverse, List.mem_finRange])]
  rfl

/-! ## Diagonal form of the exponential operator -/

theorem update_self_of_eq {n : ℕ} {σ : Basis n} {t : Fin n} {v : Bool} (h : σ t = v) :
    Function.update σ t v = σ := by
  rw [← h]
  exact Function.update_eq_self t σ

theorem u_gate_diag {n : ℕ} (q : Fin n) (len : ℕ) (ψ : State n) :
    applyCircuit (u_gate q len) ψ =
      fun σ => (if σ q then 1 else Complex.exp ((Real.pi / (2 * (len : ℝ))) * Complex.I)) *
        ψ σ := by
  funext σ
  have h0 : applyCircuit (u_gate q len) ψ =
      applyGate (Gate.x q) (applyGate (Gate.p (Real.pi / (2 * (len : ℝ))) q)
        (applyGate (Gate.x q) ψ)) := rfl
  rw [h0]
  simp only [applyGate, Function.update_same, Function.update_idem, Bool.not_not,
    Function.update_eq_self]
  cases hq : σ q <;> simp [hq]

theorem cu_squared_diag {n : ℕ} {c t : Fin n} (hct : c ≠ t) (len : ℕ) (ψ : State n) :
    applyCircuit (cu_squared c t len) ψ =
      fun σ => (if σ c && !(σ t) then Complex.exp ((-Real.pi / (len : ℝ)) * Complex.I)
        else 1) * ψ σ := by
  funext σ
  have h0 : applyCircuit (cu_squared c t len) ψ =
      applyGate (Gate.cx c t) (applyGate (Gate.cp (-Real.pi / (len : ℝ)) c t)
        (applyGate (Gate.cx c t) ψ)) := rfl
  rw [h0]
  simp only [applyGate, Function.update_same, Function.update_idem,
    Function.update_noteq hct]
  cases hc : σ c <;> cases ht : σ t <;>
    simp [hc, ht, update_self_of_eq, Function.update_eq_self, Function.update_idem]

/-- Composite of a loop whose per-qubit blocks act diagonally. -/
theorem flatMap_diag {n : ℕ} (qs : List (Fin n)) (gsF : Fin n → List (Gate n))
    (d : Fin n → Basis n → ℂ)
    (hstep : ∀ q ∈ qs, ∀ (ψ : State n) (σ : Basis n),
      applyCircuit (gsF q) ψ σ = d q σ * ψ σ) :
    ∀ (ψ : State n) (σ : Basis n), applyCircuit (qs.flatMap gsF) ψ σ =
      (qs.map fun q => d q σ).prod * ψ σ := by
  induction qs with
  | nil => intro ψ σ; simp
  | cons q rest ih =>
      intro ψ σ
      rw [List.flatMap_cons, applyCircuit_append,
        ih (fun q' hq' => hstep q' (List.mem_cons_of_mem q hq')) _ σ,
        hstep q (List.mem_cons_self q rest) ψ σ, List.map_cons, List.prod_cons]
      ring

/-- Evaluation of the exponential operator on a layout basis state: a diagonal
multiplication by per-memory-bit phases. -/
theorem apply_u_and_cu_mkB (ψ : State (2 * w + 2)) (pv : Fin w → Bool) (a b : Bool)
    (mv : Fin w → Bool) :
    applyCircuit (apply_u_and_cu (mReg w) (u0I w)) ψ (mkB pv a b mv) =
      (((List.finRange w).map fun j => if mv j then 1
          else Complex.exp ((Real.pi / (2 * (w : ℝ))) * Complex.I)).prod *
        ((List.finRange w).map fun j => if a && !(mv j)
          then Complex.exp ((-Real.pi / (w : ℝ)) * Complex.I) else 1).prod) *
        ψ (mkB pv a b mv) := by
  have hsplit : apply_u_and_cu (mReg w) (u0I w) =
      ((mReg w).flatMap fun q => u_gate q w) ++
        ((mReg w).flatMap fun q => cu_squared (u0I w) q w) := by
    rw [apply_u_and_cu, mReg_length]
  have hne : ∀ q ∈ mReg w, u0I w ≠ q := by
    intro q hq
    obtain ⟨j, _, rfl⟩ := List.mem_map.mp hq
    exact u0I_ne_mIdx j
  rw [hsplit, applyCircuit_append]
  rw [flatMap_diag (mReg w) _
    (fun q σ => if σ (u0I w) && !(σ q)
      then Complex.exp ((-Real.pi / (w : ℝ)) * Complex.I) else 1)
    (fun q hq ψ' σ => congrFun (cu_squared_diag (hne q hq) w ψ') σ)]
  rw [flatMap_diag (mReg w) _
    (fun q σ => if σ q then 1 else Complex.exp ((Real.pi / (2 * (w : ℝ))) * Complex.I))
    (fun q hq ψ' σ => congrFun (u_gate_diag q w ψ') σ)]
  have hU : ((mReg w).map fun q => if (mkB pv a b mv) q then 1
      else Complex.exp ((Real.pi / (2 * (w : ℝ))) * Complex.I)).prod =
      ((List.finRange w).map fun j => if mv j then 1
        else Complex.exp ((Real.pi / (2 * (w : ℝ))) * Complex.I)).prod := by
    rw [mReg, List.map_map]
    refine congrArg List.prod (List.map_congr_left fun j hj => ?_)
    simp only [Function.comp_apply, mkB_mIdx]
  have hC : ((mReg w).map fun q => if (mkB pv a b mv) (u0I w) && !((mkB pv a b mv) q)
      then Complex.exp ((-Real.pi / (w : ℝ)) * Complex.I) else 1).prod =
      ((List.finRange w).map fun j => if a && !(mv j)
        then Complex.exp ((-Real.pi / (w : ℝ)) * Complex.I) else 1).prod := by
    rw [mReg, List.map_map]
    refine congrArg List.prod (List.map_congr_left fun j hj => ?_)
    simp only [Function.comp_apply, mkB_mIdx, mkB_u0I]
  rw [hU, hC]
  ring

/-- The Hadamard on `u0` evaluated on a layout basis state. -/
theorem h_u0_apply (φ : State (2 * w + 2)) (pv : Fin w → Bool) (a b : Bool)
    (mv : Fin w → Bool) :
    applyGate (Gate.h (u0I w)) φ (mkB pv a b mv) =
      (φ (mkB pv false b mv) + (if a then -1 else 1) * φ (mkB pv true b mv)) /
        (Real.sqrt 2 : ℂ) := by
  simp only [applyGate, mkB_u0I, update_mkB_u0I]

/-- Phase accumulated by the `u_gate` loop on the post-compare memory
content. -/
def phaseU (pv mv : Fin w → Bool) : ℂ :=
  ((List.finRange w).map fun j => if cmpM pv mv j then 1
    else Complex.exp ((Real.pi / (2 * (w : ℝ))) * Complex.I)).prod

/-- Phase accumulated by the `cu_squared` loop on the post-compare memory
content, with control value `a`. -/
def phaseC (a : Bool) (pv mv : Fin w → Bool) : ℂ :=
  ((List.finRange w).map fun j => if a && !(cmpM pv mv j)
    then Complex.exp ((-Real.pi / (w : ℝ)) * Complex.I) else 1).prod

/-- Pointwise action of the whole retrieval sequence on the register layout:
a Hadamard-conjugated diagonal operator on the `u0` qubit, with unit-modulus
phases determined by the input/memory mismatch pattern. -/
theorem retrieval_apply_mkB (ψ : State (2 * w + 2)) (pv : Fin w → Bool) (a b : Bool)
    (mv : Fin w → Bool) :
    applyCircuit (retrieval_algorithm (pReg w) (mReg w) (u0I w)) ψ (mkB pv a b mv) =
      (phaseU pv mv * phaseC false pv mv *
          (ψ (mkB pv false b mv) + ψ (mkB pv true b mv)) +
        (if a then -1 else 1) * (phaseU pv mv * phaseC true pv mv) *
          (ψ (mkB pv false b mv) - ψ (mkB pv true b mv))) / 2 := by
  unfold phaseU phaseC
  simp only [retrieval_algorithm, applyCircuit_append, applyCircuit_singleton]
  rw [h_u0_apply, loopFrev_apply, loopFrev_apply, apply_u_and_cu_mkB,
    apply_u_and_cu_mkB, loopF_apply, loopF_apply, cmpM_invol,
    h_u0_apply, h_u0_apply]
  have hs2 : ((Real.sqrt 2 : ℝ) : ℂ) ≠ 0 := by
    rw [Complex.ofReal_ne_zero]
    positivity
  have hs2sq : ((Real.sqrt 2 : ℝ) : ℂ) * ((Real.sqrt 2 : ℝ) : ℂ) = 2 := by
    rw [← Complex.ofReal_mul, Real.mul_self_sqrt (by norm_num)]
    norm_num
  have hif1 : (if (false : Bool) = true then (-1 : ℂ) else 1) = 1 := by simp
  have hif2 : (if (true : Bool) = true then (-1 : ℂ) else 1) = -1 := by simp
  rw [hif1, hif2]
  simp only [← mul_div_assoc]
  rw [div_add_div_same, div_div, hs2sq]
  ring

end Loops

/-! ## Sum machinery over the basis -/

section Sums

variable {n : ℕ}

theorem sum_comp_invol (g : Basis n → Basis n) (hg : Function.Involutive g)
    (F : Basis n → ℝ) : ∑ σ : Basis n, F (g σ) = ∑ σ : Basis n, F σ :=
  Equiv.sum_comp (Function.Involutive.toPerm g hg) F

/-- Splitting a restricted sum over the basis into flip-pairs at one qubit. -/
theorem sum_pair_split (q : Fin n) (A : Basis n → Prop) [DecidablePred A]
    (hA : ∀ σ, A σ ↔ A (flipMap q σ)) (F : Basis n → ℝ) :
    (∑ σ : Basis n, if A σ then F σ else 0) =
      ∑ σ : Basis n, if A σ ∧ σ q = false then F σ + F (flipMap q σ) else 0 := by
  have h1 : ∀ σ : Basis n, (if A σ then F σ else 0) =
      (if A σ ∧ σ q = false then F σ else 0) +
        (if A σ ∧ σ q = true then F σ else 0) := by
    intro σ
    by_cases hAσ : A σ <;> cases hq : σ q <;> simp [hAσ, hq]
  rw [Finset.sum_congr rfl fun σ _ => h1 σ, Finset.sum_add_distrib]
  have h2 : (∑ σ : Basis n, if A σ ∧ σ q = true then F σ else 0) =
      ∑ σ : Basis n, if A σ ∧ σ q = false then F (flipMap q σ) else 0 := by
    rw [← sum_comp_invol (flipMap q) (flipMap_invol q)
      fun σ => if A σ ∧ σ q = true then F σ else 0]
    apply Finset.sum_congr rfl
    intro σ _
    have hq : (flipMap q σ) q = !(σ q) := by simp [flipMap]
    by_cases hAσ : A σ
    · have hAf : A (flipMap q σ) := (hA σ).mp hAσ
      cases hσq : σ q <;> simp [hAf, hAσ, hq, hσq]
    · have hAf : ¬A (flipMap q σ) := fun h => hAσ ((hA σ).mpr h)
      simp [hAf, hAσ]
  rw [h2, ← Finset.sum_add_distrib]
  apply Finset.sum_congr rfl
  intro σ _
  by_cases hc : A σ ∧ σ q = false <;> simp [hc]

theorem normSum_eq_if_sum (ψ : State n) :
    normSum ψ = ∑ σ : Basis n, if True then Complex.normSq (ψ σ) else 0 := by
  unfold normSum
  exact Finset.sum_congr rfl fun σ _ => by simp

theorem marginalProb_basisState (b : Basis n) (q : Fin n) (v : Bool) :
    marginalProb (basisState b) q v = if b q = v then 1 else 0 := by
  unfold marginalProb basisState
  rw [Finset.sum_eq_single b]
  · simp
  · intro σ _ hσ
    simp [hσ]
  · intro hb
    exact absurd (Finset.mem_univ b) hb

/-! ## Squared-modulus helpers -/

theorem normSq_phase_factor (r : ℝ) :
    Complex.normSq (Complex.exp ((r : ℂ) * Complex.I)) = 1 := by
  rw [← Complex.sq_abs, Complex.abs_exp_ofReal_mul_I]
  norm_num

theorem normSq_list_prod_one (l : List ℂ) (h : ∀ z ∈ l, Complex.normSq z = 1) :
    Complex.normSq l.prod = 1 := by
  induction l with
  | nil => simp
  | cons a l ih =>
      rw [List.prod_cons, Complex.normSq_mul, h a (List.mem_cons_self a l),
        ih fun z hz => h z (List.mem_cons_of_mem a hz)]
      norm_num

theorem normSq_parallelogram (A B : ℂ) :
    Complex.normSq (A + B) + Complex.normSq (A - B) =
      2 * (Complex.normSq A + Complex.normSq B) := by
  simp only [Complex.normSq_apply, Complex.add_re, Complex.add_im, Complex.sub_re,
    Complex.sub_im]
  ring

theorem normSq_two : Complex.normSq (2 : ℂ) = 4 := by
  simp [Complex.normSq_apply]
  norm_num

theorem normSq_hadamard_pair (x y : ℂ) :
    Complex.normSq ((x + y) / (Real.sqrt 2 : ℂ)) +
      Complex.normSq ((x - y) / (Real.sqrt 2 : ℂ)) =
    Complex.normSq x + Complex.normSq y := by
  rw [Complex.normSq_div, Complex.normSq_div]
  have h2 : Complex.normSq ((Real.sqrt 2 : ℝ) : ℂ) = 2 := by
    rw [Complex.normSq_ofReal, Real.mul_self_sqrt (by norm_num)]
  rw [h2, div_add_div_same]
  have hpar := normSq_parallelogram x y
  linarith

theorem normSq_rot_pair (θ : ℝ) (x y : ℂ) :
    Complex.normSq ((Real.cos θ : ℂ) * x - (Real.sin θ : ℂ) * y) +
      Complex.normSq ((Real.sin θ : ℂ) * x + (Real.cos θ : ℂ) * y) =
    Complex.normSq x + Complex.normSq y := by
  have h := Real.sin_sq_add_cos_sq θ
  simp only [Complex.normSq_apply, Complex.sub_re, Complex.sub_im, Complex.add_re,
    Complex.add_im, Complex.mul_re, Complex.mul_im, Complex.ofReal_re, Complex.ofReal_im]
  nlinarith [h]

theorem normSq_phase_pair (l0 l1 x y : ℂ) (h0 : Complex.normSq l0 = 1)
    (h1 : Complex.normSq l1 = 1) :
    Complex.normSq ((l0 * (x + y) + l1 * (x - y)) / 2) +
      Complex.normSq ((l0 * (x + y) - l1 * (x - y)) / 2) =
    Complex.normSq x + Complex.normSq y := by
  rw [Complex.normSq_div, Complex.normSq_div, normSq_two, div_add_div_same]
  have hpar := normSq_parallelogram (l0 * (x + y)) (l1 * (x - y))
  rw [Complex.normSq_mul, Complex.normSq_mul, h0, h1, one_mul, one_mul] at hpar
  have hpar2 := normSq_parallelogram x y
  have hxy : Complex.normSq (x + y) + Complex.normSq (x - y) =
      2 * (Complex.normSq x + Complex.normSq y) := hpar2
  linarith

end Sums

/-! ## Unitarity: every well-formed gate preserves the norm sum -/

/-- Well-formedness of a gate: control qubits are distinct from the target
(all gates appearing in the source circuits satisfy this). -/
def Gate.WF {n : ℕ} : Gate n → Prop
  | Gate.x _ => True
  | Gate.h _ => True
  | Gate.p _ _ => True
  | Gate.cx c t => c ≠ t
  | Gate.ccx c1 c2 t => c1 ≠ t ∧ c2 ≠ t
  | Gate.mcx cs t => t ∉ cs
  | Gate.cry _ c t => c ≠ t
  | Gate.cp _ _ _ => True

theorem normSum_applyGate {n : ℕ} (g : Gate n) (hg : g.WF) (ψ : State n) :
    normSum (applyGate g ψ) = normSum ψ := by
  cases g with
  | x q =>
      unfold normSum
      exact sum_comp_invol (flipMap q) (flipMap_invol q) fun σ => Complex.normSq (ψ σ)
  | cx c t =>
      unfold normSum
      exact sum_comp_invol (cxMap c t) (cxMap_invol hg) fun σ => Complex.normSq (ψ σ)
  | ccx c1 c2 t =>
      unfold normSum
      exact sum_comp_invol (ccxMap c1 c2 t) (ccxMap_invol hg.1 hg.2)
        fun σ => Complex.normSq (ψ σ)
  | mcx cs t =>
      unfold normSum
      exact sum_comp_invol (mcxMap cs t) (mcxMap_invol hg) fun σ => Complex.normSq (ψ σ)
  | p θ q =>
      unfold normSum
      apply Finset.sum_congr rfl
      intro σ _
      by_cases hq : σ q <;>
        simp [applyGate, hq, Complex.normSq_mul, normSq_phase_factor]
  | cp θ c t =>
      unfold normSum
      apply Finset.sum_congr rfl
      intro σ _
      by_cases hc : σ c && σ t <;>
        simp [applyGate, hc, Complex.normSq_mul, normSq_phase_factor]
  | h q =>
      have key : ∀ σ : Basis n, σ q = false →
          Complex.normSq (applyGate (Gate.h q) ψ σ) +
            Complex.normSq (applyGate (Gate.h q) ψ (flipMap q σ)) =
          Complex.normSq (ψ σ) + Complex.normSq (ψ (flipMap q σ)) := by
        intro σ hσq
        have e1 : Function.update σ q false = σ := update_self_of_eq hσq
        have e2 : Function.update σ q true = flipMap q σ := by
          unfold flipMap
          rw [hσq]
          rfl
        have e5 : (flipMap q σ) q = true := by
          unfold flipMap
          simp [hσq]
        have e3 : Function.update (flipMap q σ) q false = σ := by
          unfold flipMap
          rw [Function.update_idem]
          exact update_self_of_eq hσq
        have e4 : Function.update (flipMap q σ) q true = flipMap q σ :=
          update_self_of_eq e5
        simp only [applyGate, e1, e2, e3, e4, e5, hσq, if_true, if_false,
          Bool.false_eq_true, one_mul]
        rw [show (-1 : ℂ) * ψ (flipMap q σ) = -(ψ (flipMap q σ)) from by ring,
          ← sub_eq_add_neg]
        exact normSq_hadamard_pair (ψ σ) (ψ (flipMap q σ))
      unfold normSum
      rw [show (∑ σ : Basis n, Complex.normSq (applyGate (Gate.h q) ψ σ)) =
          ∑ σ : Basis n, if True then Complex.normSq (applyGate (Gate.h q) ψ σ) else 0
          from Finset.sum_congr rfl fun σ _ => by simp]
      rw [sum_pair_split q (fun _ => True) (fun σ => by simp) _]
      rw [show (∑ σ : Basis n, Complex.normSq (ψ σ)) =
          ∑ σ : Basis n, if True then Complex.normSq (ψ σ) else 0
          from Finset.sum_congr rfl fun σ _ => by simp]
      rw [sum_pair_split q (fun _ => True) (fun σ => by simp) _]
      apply Finset.sum_congr rfl
      intro σ _
      by_cases hσq : σ q = false
      · simp only [hσq, true_and, and_true, if_true]
        exact key σ hσq
      · simp [hσq]
  | cry θ c t =>
      have hct : c ≠ t := hg
      have hsplit : ∀ φ : State n, (∑ σ : Basis n, Complex.normSq (φ σ)) =
          (∑ σ : Basis n, if σ c = true then Complex.normSq (φ σ) else 0) +
            ∑ σ : Basis n, if σ c = false then Complex.normSq (φ σ) else 0 := by
        intro φ
        rw [← Finset.sum_add_distrib]
        apply Finset.sum_congr rfl
        intro σ _
        cases hσc : σ c <;> simp [hσc]
      unfold normSum
      rw [hsplit (applyGate (Gate.cry θ c t) ψ), hsplit ψ]
      have hfalse : (∑ σ : Basis n,
          if σ c = false then Complex.normSq (applyGate (Gate.cry θ c t) ψ σ) else 0) =
          ∑ σ : Basis n, if σ c = false then Complex.normSq (ψ σ) else 0 := by
        apply Finset.sum_congr rfl
        intro σ _
        by_cases hσc : σ c = false
        · simp [applyGate, hσc]
        · simp [hσc]
      have hAinv : ∀ σ : Basis n, (σ c = true) ↔ ((flipMap t σ) c = true) := by
        intro σ
        unfold flipMap
        rw [Function.update_noteq hct]
      have htrue : (∑ σ : Basis n,
          if σ c = true then Complex.normSq (applyGate (Gate.cry θ c t) ψ σ) else 0) =
          ∑ σ : Basis n, if σ c = true then Complex.normSq (ψ σ) else 0 := by
        rw [sum_pair_split t (fun σ => σ c = true) hAinv _,
          sum_pair_split t (fun σ => σ c = true) hAinv fun σ => Complex.normSq (ψ σ)]
        apply Finset.sum_congr rfl
        intro σ _
        by_cases hc : σ c = true ∧ σ t = false
        · obtain ⟨hσc, hσt⟩ := hc
          have e1 : Function.update σ t false = σ := update_self_of_eq hσt
          have e2 : Function.update σ t true = flipMap t σ := by
            unfold flipMap
            rw [hσt]
            rfl
          have e5 : (flipMap t σ) t = true := by
            unfold flipMap
            simp [hσt]
          have e3 : Function.update (flipMap t σ) t false = σ := by
            unfold flipMap
            rw [Function.update_idem]
            exact update_self_of_eq hσt
          have e4 : Function.update (flipMap t σ) t true = flipMap t σ :=
            update_self_of_eq e5
          have e6 : (flipMap t σ) c = true := (hAinv σ).mp hσc
          simp only [hσc, hσt, and_self, if_true, applyGate, e1, e2, e3, e4, e5, e6,
            Bool.false_eq_true, if_false]
          exact normSq_rot_pair (θ / 2) (ψ σ) (ψ (flipMap t σ))
        · simp [hc]
      rw [hfalse, htrue]

/-- A circuit of well-formed gates preserves the norm sum. -/
theorem normSum_applyCircuit {n : ℕ} (gs : List (Gate n)) (h : ∀ g ∈ gs, g.WF)
    (ψ : State n) : normSum (applyCircuit gs ψ) = normSum ψ := by
  induction gs generalizing ψ with
  | nil => rfl
  | cons g gs ih =>
      rw [applyCircuit_cons, ih fun g' hg' => h g' (List.mem_cons_of_mem g hg'),
        normSum_applyGate g (h g (List.mem_cons_self g gs)) ψ]

/-! ## The source circuits consist of well-formed gates -/

section WF

variable {w : ℕ}

theorem pauliGates_wf {n : ℕ} (val : ℕ) (qs : List (Fin n)) :
    ∀ g ∈ pauliGates val qs, Gate.WF g := by
  intro g hg
  obtain ⟨idx, _, hmem⟩ := List.mem_flatMap.mp hg
  by_cases hb : val.testBit idx
  · rw [if_pos hb] at hmem
    cases hq : qs.get? idx with
    | none => rw [hq] at hmem; simp at hmem
    | some q =>
        rw [hq] at hmem
        simp only [Option.map_some', Option.toList_some, List.mem_singleton] at hmem
        subst hmem
        trivial
  · rw [if_neg hb] at hmem
    simp at hmem

theorem mem_zip_pm {q : Fin (2 * w + 2) × Fin (2 * w + 2)}
    (hq : q ∈ (pReg w).zip (mReg w)) : ∃ j : Fin w, q = (pIdx w j, mIdx w j) := by
  rw [zip_pm] at hq
  obtain ⟨j, _, hj⟩ := List.mem_map.mp hq
  exact ⟨j, hj.symm⟩

theorem storage_step_wf (val i len_ps : ℕ) :
    ∀ g ∈ storage_step val (pReg w) (u0I w) (u1I w) (mReg w) i len_ps, Gate.WF g := by
  intro g hg
  rw [storage_step] at hg
  simp only [List.mem_append] at hg
  rcases hg with ((((((((h1 | h2) | h3) | h4) | h5) | h6) | h7) | h8) | h9)
  · exact pauliGates_wf val (pReg w) g h1
  · obtain ⟨q, hq, rfl⟩ := List.mem_map.mp h2
    obtain ⟨j, rfl⟩ := mem_zip_pm hq
    exact ⟨pIdx_ne_mIdx j j, u1I_ne_mIdx j⟩
  · obtain ⟨q, hq, hmem⟩ := List.mem_flatMap.mp h3
    obtain ⟨j, rfl⟩ := mem_zip_pm hq
    rcases List.mem_cons.mp hmem with rfl | hmem'
    · exact pIdx_ne_mIdx j j
    · rcases List.mem_singleton.mp hmem' with rfl
      trivial
  · rcases List.mem_singleton.mp h4 with rfl
    exact u0I_not_mem_mReg
  · rcases List.mem_singleton.mp h5 with rfl
    exact u0I_ne_u1I
  · rcases List.mem_singleton.mp h6 with rfl
    exact u0I_not_mem_mReg
  · obtain ⟨q, hq, hmem⟩ := List.mem_flatMap.mp h7
    obtain ⟨j, rfl⟩ := mem_zip_pm (List.mem_reverse.mp hq)
    rcases List.mem_cons.mp hmem with rfl | hmem'
    · trivial
    · rcases List.mem_singleton.mp hmem' with rfl
      exact pIdx_ne_mIdx j j
  · obtain ⟨q, hq, rfl⟩ := List.mem_map.mp h8
    obtain ⟨j, rfl⟩ := mem_zip_pm (List.mem_reverse.mp hq)
    exact ⟨pIdx_ne_mIdx j j, u1I_ne_mIdx j⟩
  · exact pauliGates_wf val (pReg w) g h9

theorem storage_algorithm_wf (ps : List ℕ) :
    ∀ g ∈ storage_algorithm ps (pReg w) (u0I w) (u1I w) (mReg w), Gate.WF g := by
  intro g hg
  rw [storage_algorithm] at hg
  obtain ⟨iv, _, hmem⟩ := List.mem_flatMap.mp hg
  exact storage_step_wf iv.2 (iv.1 + 1) ps.length g hmem

theorem apply_u_and_cu_wf : ∀ g ∈ apply_u_and_cu (mReg w) (u0I w), Gate.WF g := by
  intro g hg
  rw [apply_u_and_cu] at hg
  rcases List.mem_append.mp hg with h | h
  · obtain ⟨q, hq, hmem⟩ := List.mem_flatMap.mp h
    rw [u_gate] at hmem
    rcases List.mem_cons.mp hmem with rfl | hmem'
    · trivial
    · rcases List.mem_cons.mp hmem' with rfl | hmem''
      · trivial
      · rcases List.mem_singleton.mp hmem'' with rfl
        trivial
  · obtain ⟨q, hq, hmem⟩ := List.mem_flatMap.mp h
    obtain ⟨j, _, rfl⟩ := List.mem_map.mp hq
    rw [cu_squared] at hmem
    rcases List.mem_cons.mp hmem with rfl | hmem'
    · exact u0I_ne_mIdx j
    · rcases List.mem_cons.mp hmem' with rfl | hmem''
      · trivial
      · rcases List.mem_singleton.mp hmem'' with rfl
        exact u0I_ne_mIdx j

theorem retrieval_algorithm_wf :
    ∀ g ∈ retrieval_algorithm (pReg w) (mReg w) (u0I w), Gate.WF g := by
  intro g hg
  rw [retrieval_algorithm] at hg
  simp only [List.mem_append] at hg
  rcases hg with (((h1 | h2) | h3) | h4) | h5
  · rcases List.mem_singleton.mp h1 with rfl
    trivial
  · obtain ⟨q, hq, hmem⟩ := List.mem_flatMap.mp h2
    obtain ⟨j, rfl⟩ := mem_zip_pm hq
    rcases List.mem_cons.mp hmem with rfl | hmem'
    · exact pIdx_ne_mIdx j j
    · rcases List.mem_singleton.mp hmem' with rfl
      trivial
  · exact apply_u_and_cu_wf g h3
  · obtain ⟨q, hq, hmem⟩ := List.mem_flatMap.mp h4
    obtain ⟨j, rfl⟩ := mem_zip_pm (List.mem_reverse.mp hq)
    rcases List.mem_cons.mp hmem with rfl | hmem'
    · trivial
    · rcases List.mem_singleton.mp hmem' with rfl
      exact pIdx_ne_mIdx j j
  · rcases List.mem_singleton.mp h5 with rfl
    trivial

end WF

/-! ## Behaviour of the checked pattern codec -/

section Codec

theorem pauliLoop_ok {n : ℕ} (val : ℕ) (qs : List (Fin n)) :
    ∀ (idxs : List ℕ) (acc : List (Gate n)),
      (∀ idx ∈ idxs, val.testBit idx = true → idx < qs.length) →
      pauliLoop val qs idxs acc =
        .ok (acc ++ idxs.flatMap fun idx =>
          if val.testBit idx then ((qs.get? idx).map Gate.x).toList else []) := by
  intro idxs
  induction idxs with
  | nil => intro acc _; simp [pauliLoop]
  | cons idx rest ih =>
      intro acc hidx
      simp only [pauliLoop]
      by_cases hb : val.testBit idx
      · rw [if_pos hb]
        have hlt : idx < qs.length := hidx idx (List.mem_cons_self _ _) hb
        cases hq : qs.get? idx with
        | none =>
            have := List.get?_eq_none.mp hq
            omega
        | some q =>
            have hred : (match some q with
                | some q => pauliLoop val qs rest (acc ++ [Gate.x q])
                | none => Except.error (α := List (Gate n)) StorageError.encodingOverflow) =
                pauliLoop val qs rest (acc ++ [Gate.x q]) := rfl
            rw [hred, ih (acc ++ [Gate.x q])
              fun i hi hb' => hidx i (List.mem_cons_of_mem _ hi) hb']
            rw [List.flatMap_cons, if_pos hb, hq]
            simp [List.append_assoc]
      · rw [if_neg hb,
          ih acc fun i hi hb' => hidx i (List.mem_cons_of_mem _ hi) hb',
          List.flatMap_cons, if_neg hb]
        simp

theorem pauliLoop_error {n : ℕ} (val : ℕ) (qs : List (Fin n)) :
    ∀ (idxs : List ℕ) (acc : List (Gate n)),
      (∃ idx ∈ idxs, val.testBit idx = true ∧ qs.length ≤ idx) →
      pauliLoop val qs idxs acc = .error StorageError.encodingOverflow := by
  intro idxs
  induction idxs with
  | nil =>
      rintro acc ⟨idx, h, _⟩
      simp at h
  | cons idx rest ih =>
      rintro acc ⟨i, hi, hb, hlen⟩
      simp only [pauliLoop]
      by_cases hbh : val.testBit idx
      · rw [if_pos hbh]
        cases hq : qs.get? idx with
        | none => rfl
        | some q =>
            have hlt : idx < qs.length := by
              by_contra hc
              rw [List.get?_eq_none.mpr (le_of_not_lt hc)] at hq
              exact absurd hq (by simp)
            apply ih
            rcases List.mem_cons.mp hi with rfl | hrest
            · omega
            · exact ⟨i, hrest, hb, hlen⟩
      · rw [if_neg hbh]
        apply ih
        rcases List.mem_cons.mp hi with rfl | hrest
        · exact absurd hb hbh
        · exact ⟨i, hrest, hb, hlen⟩

/-- On a value that fits the register, the checked codec walk succeeds and
produces exactly the `pauliGates` list. -/
theorem apply_pauli_from_int_ok {n : ℕ} (val : ℕ) (qs : List (Fin n))
    (hfit : val < 2 ^ qs.length) :
    apply_pauli_from_int val qs = .ok (pauliGates val qs) := by
  unfold apply_pauli_from_int pauliGates
  rw [pauliLoop_ok]
  · rw [List.nil_append]
  · intro idx _ hb
    by_contra hc
    rw [Nat.testBit_eq_false_of_lt
      (lt_of_lt_of_le hfit (Nat.pow_le_pow_right (by norm_num) (le_of_not_lt hc)))] at hb
    exact absurd hb (by simp)

theorem testBit_size_pred {v : ℕ} (hv : 0 < v) : v.testBit (v.size - 1) = true := by
  have hs : 0 < v.size := Nat.size_pos.mpr hv
  have h1 : 2 ^ (v.size - 1) ≤ v := Nat.lt_size.mp (by omega)
  have h2 : v < 2 ^ v.size := Nat.lt_size_self v
  have hpow : 2 ^ v.size = 2 * 2 ^ (v.size - 1) := by
    rw [← pow_succ']
    congr 1
    omega
  rw [Nat.testBit_to_div_mod]
  have hdiv : v / 2 ^ (v.size - 1) = 1 := by
    apply Nat.div_eq_of_lt_le
    · simpa using h1
    · omega
  rw [hdiv]
  rfl

/-- On a value wider than the register, the checked codec walk fails with the
overflow error. -/
theorem apply_pauli_from_int_overflow {n : ℕ} (val : ℕ) (qs : List (Fin n))
    (hof : 2 ^ qs.length ≤ val) :
    apply_pauli_from_int val qs = .error StorageError.encodingOverflow := by
  unfold apply_pauli_from_int
  apply pauliLoop_error
  have hvpos : 0 < val := lt_of_lt_of_le (Nat.pos_pow_of_pos _ (by norm_num)) hof
  have hs : 0 < val.size := Nat.size_pos.mpr hvpos
  have hlen : qs.length < val.size := Nat.lt_size.mpr hof
  refine ⟨val.size - 1, ?_, testBit_size_pred hvpos, by omega⟩
  rw [List.mem_range]
  have hp : val.size ≤ padLen val qs.length := le_trans (le_max_right _ _) (le_max_right _ _)
  omega

/-! ## Self-inverse action of the codec -/

theorem exists_map_x {n : ℕ} (I : List ℕ) (f : ℕ → List (Gate n))
    (hf : ∀ i, (∃ q, f i = [Gate.x q]) ∨ f i = []) :
    ∃ L : List (Fin n), I.flatMap f = L.map Gate.x := by
  induction I with
  | nil => exact ⟨[], rfl⟩
  | cons i rest ih =>
      obtain ⟨L, hL⟩ := ih
      rcases hf i with ⟨q, hq⟩ | hq
      · exact ⟨q :: L, by simp [hq, hL]⟩
      · exact ⟨L, by simp [hq, hL]⟩

theorem pauliGates_eq_map_x {n : ℕ} (val : ℕ) (qs : List (Fin n)) :
    ∃ L : List (Fin n), pauliGates val qs = L.map Gate.x := by
  unfold pauliGates
  apply exists_map_x
  intro i
  by_cases hb : val.testBit i
  · cases hq : qs.get? i with
    | none => right; rw [if_pos hb]; rfl
    | some q => left; exact ⟨q, by rw [if_pos hb]; rfl⟩
  · right; rw [if_neg hb]

/-- Composite flips of an `x`-gate list. -/
def xflips {n : ℕ} : List (Fin n) → Basis n → Basis n
  | [], σ => σ
  | q :: L, σ => flipMap q (xflips L σ)

theorem xlist_pointwise {n : ℕ} (L : List (Fin n)) (ψ : State n) :
    ∀ σ, applyCircuit (L.map Gate.x) ψ σ = ψ (xflips L σ) := by
  induction L generalizing ψ with
  | nil => intro σ; rfl
  | cons q L ih =>
      intro σ
      rw [List.map_cons, applyCircuit_cons, ih]
      rfl

theorem flipMap_comm {n : ℕ} (q q' : Fin n) (σ : Basis n) :
    flipMap q (flipMap q' σ) = flipMap q' (flipMap q σ) := by
  rcases eq_or_ne q q' with rfl | hqq
  · rfl
  · unfold flipMap
    rw [Function.update_noteq hqq, Function.update_noteq hqq.symm,
      Function.update_comm hqq]

theorem xflips_flip {n : ℕ} (L : List (Fin n)) (q : Fin n) (σ : Basis n) :
    xflips L (flipMap q σ) = flipMap q (xflips L σ) := by
  induction L with
  | nil => rfl
  | cons q' L ih => rw [xflips, xflips, ih, flipMap_comm]

theorem xflips_invol {n : ℕ} (L : List (Fin n)) (σ : Basis n) :
    xflips L (xflips L σ) = σ := by
  induction L with
  | nil => rfl
  | cons q L ih => rw [xflips, xflips, xflips_flip, flipMap_invol q, ih]

/-- Any `x`-gate list applied twice is the identity on states. -/
theorem xlist_double {n : ℕ} (L : List (Fin n)) (ψ : State n) :
    applyCircuit (L.map Gate.x ++ L.map Gate.x) ψ = ψ := by
  funext σ
  rw [applyCircuit_append, xlist_pointwise, xlist_pointwise, xflips_invol]

end Codec

/-! ## Evaluation of the checked angle schedule -/

section Angle

theorem find_angle_checked_not_ok {j : ℤ} (hj : j < 1) (θ : ℝ) :
    find_angle_checked j ≠ AngleResult.ok θ := by
  unfold find_angle_checked
  rcases eq_or_lt_of_le (show j ≤ 0 from by omega) with rfl | hneg
  · simp
  · have hj0 : j ≠ 0 := by omega
    rw [if_neg hj0]
    have hjle : j ≤ -1 := by omega
    have hxr : (j : ℝ) ≤ -1 := by exact_mod_cast hjle
    have hden : (j : ℝ) < 0 := lt_of_le_of_lt hxr (by norm_num)
    have harg : 1 < ((j : ℝ) - 1) / (j : ℝ) := by
      rw [lt_div_iff_of_neg hden]
      linarith
    have hnotlt : ¬(((j : ℝ) - 1) / (j : ℝ) < 0) := by linarith
    rw [if_neg hnotlt]
    have hsq : 1 < Real.sqrt (((j : ℝ) - 1) / (j : ℝ)) := by
      have h1 : Real.sqrt 1 < Real.sqrt (((j : ℝ) - 1) / (j : ℝ)) :=
        Real.sqrt_lt_sqrt (by norm_num) harg
      rwa [Real.sqrt_one] at h1
    rw [if_pos (Or.inl hsq)]
    simp

theorem find_angle_checked_one_eq :
    find_angle_checked 1 = AngleResult.ok (find_angle 1) := by
  unfold find_angle_checked find_angle
  rw [if_neg (by norm_num : (1 : ℤ) ≠ 0)]
  have h1 : ((((1 : ℤ) : ℝ)) - 1) / (((1 : ℤ) : ℝ)) = ((1 : ℝ) - 1) / ((1 : ℕ) : ℝ) := by
    norm_num
  have h0 : ((((1 : ℤ) : ℝ)) - 1) / (((1 : ℤ) : ℝ)) = 0 := by norm_num
  rw [h0]
  rw [if_neg (lt_irrefl 0), Real.sqrt_zero]
  rw [if_neg (by norm_num)]
  have h2 : (((1 : ℕ) : ℝ) - 1) / ((1 : ℕ) : ℝ) = 0 := by norm_num
  rw [h2, Real.sqrt_zero]

theorem find_angle_one : find_angle 1 = -Real.pi := by
  unfold find_angle
  have h2 : (((1 : ℕ) : ℝ) - 1) / ((1 : ℕ) : ℝ) = 0 := by norm_num
  rw [h2, Real.sqrt_zero, Real.arccos_zero]
  ring

end Angle

/-! ## Remaining helpers for the claims -/

section ClaimHelpers

variable {w : ℕ}

/-- The memory-register content of a basis state. -/
def mOf (σ : Basis (2 * w + 2)) : Fin w → Bool := fun j => σ (mIdx w j)

/-- The pattern-register content of a basis state. -/
def pOf (σ : Basis (2 * w + 2)) : Fin w → Bool := fun j => σ (pIdx w j)

/-- Probability of observing the memory register in the bit pattern `v`. -/
def mMarginal (ψ : State (2 * w + 2)) (v : Fin w → Bool) : ℝ :=
  ∑ σ : Basis (2 * w + 2), if mOf σ = v then Complex.normSq (ψ σ) else 0

theorem mOf_flip_u0 (σ : Basis (2 * w + 2)) : mOf (flipMap (u0I w) σ) = mOf σ := by
  funext j
  unfold mOf flipMap
  rw [Function.update_noteq (mIdx_ne_u0I j)]

theorem mOf_mkB (pv : Fin w → Bool) (a b : Bool) (mv : Fin w → Bool) :
    mOf (mkB pv a b mv) = mv := by
  funext j
  unfold mOf
  rw [mkB_mIdx]

theorem pOf_mkB (pv : Fin w → Bool) (a b : Bool) (mv : Fin w → Bool) :
    pOf (mkB pv a b mv) = pv := by
  funext j
  unfold pOf
  rw [mkB_pIdx]

theorem flip_u0_mkB (qp : Fin w → Bool) (qb : Bool) (qm : Fin w → Bool) :
    flipMap (u0I w) (mkB qp false qb qm) = mkB qp true qb qm := by
  unfold flipMap
  rw [mkB_u0I, update_mkB_u0I, Bool.not_false]

theorem normSum_basisState {n : ℕ} (b : Basis n) : normSum (basisState b) = 1 := by
  unfold normSum basisState
  rw [Finset.sum_eq_single b]
  · simp
  · intro σ _ hσ
    simp [hσ]
  · intro hb
    exact absurd (Finset.mem_univ b) hb

theorem phaseU_self (v : Fin w → Bool) : phaseU v v = 1 := by
  unfold phaseU
  apply List.prod_eq_one
  intro z hz
  obtain ⟨j, _, rfl⟩ := List.mem_map.mp hz
  simp [cmpM]

theorem phaseC_self (a : Bool) (v : Fin w → Bool) : phaseC a v v = 1 := by
  unfold phaseC
  apply List.prod_eq_one
  intro z hz
  obtain ⟨j, _, rfl⟩ := List.mem_map.mp hz
  simp [cmpM]

theorem normSq_phaseU (pv mv : Fin w → Bool) : Complex.normSq (phaseU pv mv) = 1 := by
  unfold phaseU
  apply normSq_list_prod_one
  intro z hz
  obtain ⟨j, _, rfl⟩ := List.mem_map.mp hz
  by_cases hc : cmpM pv mv j
  · simp [hc]
  · rw [if_neg hc]
    have hcast : ((Real.pi : ℂ) / (2 * ((w : ℝ) : ℂ))) =
        ((Real.pi / (2 * (w : ℝ)) : ℝ) : ℂ) := by
      push_cast
      ring
    rw [hcast]
    exact normSq_phase_factor (Real.pi / (2 * (w : ℝ)))

theorem normSq_phaseC (a : Bool) (pv mv : Fin w → Bool) :
    Complex.normSq (phaseC a pv mv) = 1 := by
  unfold phaseC
  apply normSq_list_prod_one
  intro z hz
  obtain ⟨j, _, rfl⟩ := List.mem_map.mp hz
  by_cases hc : a && !(cmpM pv mv j)
  · rw [if_pos hc]
    have hcast : (-(Real.pi : ℂ) / ((w : ℝ) : ℂ)) =
        ((-Real.pi / (w : ℝ) : ℝ) : ℂ) := by
      push_cast
      ring
    rw [hcast]
    exact normSq_phase_factor (-Real.pi / (w : ℝ))
  · simp [hc]

/-- The whole storage circuit is the full prefix of its per-pattern steps. -/
theorem storage_algorithm_eq_take (ps : List ℕ) :
    storage_algorithm ps (pReg w) (u0I w) (u1I w) (mReg w) =
      (ps.enum.take ps.length).flatMap fun iv =>
        storage_step iv.2 (pReg w) (u0I w) (u1I w) (mReg w) (iv.1 + 1) ps.length := by
  rw [storage_algorithm]
  congr 1
  rw [← List.enum_length (l := ps)]
  exact (List.take_length ps.enum).symm

/-- Final state of the storage algorithm on a distinct, fitting pattern list:
the uniform superposition of the stored patterns in the memory register. -/
theorem storage_total_state (ps : List ℕ) (hnd : ps.Nodup)
    (hfit : ∀ v ∈ ps, v < 2 ^ w) (hN : 0 < ps.length) :
    applyCircuit (storage_algorithm ps (pReg w) (u0I w) (u1I w) (mReg w)) (initState w) =
      ∑ t ∈ Finset.range ps.length, ((1 / Real.sqrt (ps.length : ℝ) : ℝ) : ℂ) •
        basisState (mkB (zf w) false false (bitsOf w (ps.getD t 0))) := by
  rw [storage_algorithm_eq_take]
  rw [show initState w = basisState (mkB (zf w) false true (zf w)) from rfl]
  rw [storage_loop_state ps hnd hfit hN ps.length le_rfl]
  rw [Nat.sub_self]
  rw [Nat.cast_zero, zero_div, Real.sqrt_zero]
  rw [Complex.ofReal_zero, zero_smul, add_zero]

/-- Retrieval on a basis state whose input register matches the memory
register exactly is the identity. -/
theorem retrieval_match_delta (v : Fin w → Bool) (c : Bool) :
    applyCircuit (retrieval_algorithm (pReg w) (mReg w) (u0I w))
      (basisState (mkB v false c v)) = basisState (mkB v false c v) := by
  funext σ
  obtain ⟨qp, qa, qb, qm, rfl⟩ : ∃ qp qa qb qm, σ = mkB qp qa qb qm :=
    ⟨_, _, _, _, eq_mkB σ⟩
  rw [retrieval_apply_mkB]
  by_cases h : qp = v ∧ qb = c ∧ qm = v
  · obtain ⟨rfl, rfl, rfl⟩ := h
    rw [phaseU_self, phaseC_self, phaseC_self]
    simp only [basisState, mkB_eq_mkB_iff]
    cases qa <;> simp
  · have hx : basisState (mkB v false c v) (mkB qp false qb qm) = 0 := by
      simp only [basisState, mkB_eq_mkB_iff]
      rw [if_neg]
      intro hcon
      exact h ⟨hcon.1, hcon.2.2.1, hcon.2.2.2⟩
    have hy : basisState (mkB v false c v) (mkB qp true qb qm) = 0 := by
      simp [basisState, mkB_eq_mkB_iff]
    have hrhs : basisState (mkB v false c v) (mkB qp qa qb qm) = 0 := by
      cases qa
      · exact hx
      · exact hy
    rw [hx, hy, hrhs]
    ring

/-- The retrieval sequence preserves the squared-magnitude pair carried by the
two control-qubit configurations over each fixed rest-of-basis assignment. -/
theorem retrieval_pair_normSq (ψ : State (2 * w + 2)) (qp : Fin w → Bool) (qb : Bool)
    (qm : Fin w → Bool) :
    Complex.normSq (applyCircuit (retrieval_algorithm (pReg w) (mReg w) (u0I w)) ψ
        (mkB qp false qb qm)) +
      Complex.normSq (applyCircuit (retrieval_algorithm (pReg w) (mReg w) (u0I w)) ψ
        (mkB qp true qb qm)) =
    Complex.normSq (ψ (mkB qp false qb qm)) + Complex.normSq (ψ (mkB qp true qb qm)) := by
  rw [retrieval_apply_mkB, retrieval_apply_mkB]
  have hif1 : (if (false : Bool) = true then (-1 : ℂ) else 1) = 1 := by simp
  have hif2 : (if (true : Bool) = true then (-1 : ℂ) else 1) = -1 := by simp
  rw [hif1, hif2, one_mul]
  rw [show (-1 : ℂ) * (phaseU qp qm * phaseC true qp qm) *
      (ψ (mkB qp false qb qm) - ψ (mkB qp true qb qm)) =
      -((phaseU qp qm * phaseC true qp qm) *
        (ψ (mkB qp false qb qm) - ψ (mkB qp true qb qm))) from by ring,
    ← sub_eq_add_neg]
  rw [show phaseU qp qm * phaseC false qp qm *
      (ψ (mkB qp false qb qm) + ψ (mkB qp true qb qm)) +
      phaseU qp qm * phaseC true qp qm *
      (ψ (mkB qp false qb qm) - ψ (mkB qp true qb qm)) =
      (phaseU qp qm * phaseC false qp qm) *
      (ψ (mkB qp false qb qm) + ψ (mkB qp true qb qm)) +
      (phaseU qp qm * phaseC true qp qm) *
      (ψ (mkB qp false qb qm) - ψ (mkB qp true qb qm)) from by ring]
  exact normSq_phase_pair _ _ _ _
    (by rw [Complex.normSq_mul, normSq_phaseU, normSq_phaseC]; norm_num)
    (by rw [Complex.normSq_mul, normSq_phaseU, normSq_phaseC]; norm_num)

/-- Amplitude of the stored basis state after storing the single pattern `1`
in a width-1 memory: exactly 1. -/
theorem storage_single_one_apply :
    applyCircuit (storage_algorithm [1] (pReg 1) (u0I 1) (u1I 1) (mReg 1)) (initState 1)
      (mkB (zf 1) false false (bitsOf 1 1)) = 1 := by
  have hfit : ∀ v ∈ ([1] : List ℕ), v < 2 ^ 1 := by
    intro v hv
    rw [List.mem_singleton] at hv
    subst hv
    norm_num
  rw [storage_total_state [1] (by simp) hfit (by norm_num)]
  rw [show ([1] : List ℕ).length = 1 from rfl]
  rw [Finset.sum_apply, Finset.sum_range_one]
  rw [show ([1] : List ℕ).getD 0 0 = 1 from rfl]
  rw [Pi.smul_apply]
  rw [show basisState (mkB (zf 1) false false (bitsOf 1 1))
      (mkB (zf 1) false false (bitsOf 1 1)) = 1 from by simp [basisState]]
  rw [Nat.cast_one, Real.sqrt_one]
  norm_num

end ClaimHelpers

/-! ## The claims -/

section Claims

/-- The exponential-phase operator as the specification sentence alone
describes it: for each memory qubit a phase of angle `π/(2n)` sandwiched
between bit flips, then for each memory qubit a single controlled phase of
angle `-π/n` from the control, with no further gates. -/
def claimed_u_and_cu {n : ℕ} (m : List (Fin n)) (c : Fin n) : List (Gate n) :=
  (m.flatMap fun q => [Gate.x q, Gate.p (Real.pi / (2 * (m.length : ℝ))) q, Gate.x q]) ++
    m.map fun q => Gate.cp (-Real.pi / (m.length : ℝ)) c q

/-- C5, counterexample: on a one-qubit memory the operator built by the code
is not the gate list the claim describes — `cu_squared` emits a `cx`-sandwiched
controlled phase (three gates per memory qubit), not a bare controlled phase. -/
theorem c5_operator_gate_list_counterexample :
    apply_u_and_cu [(0 : Fin 2)] (1 : Fin 2) ≠ claimed_u_and_cu [(0 : Fin 2)] (1 : Fin 2) := by
  intro h
  have hlen := congrArg List.length h
  simp [apply_u_and_cu, claimed_u_and_cu, u_gate, cu_squared] at hlen

/-- C5 (amended): the exponential-phase operator consists, for each memory
qubit, of a phase of angle `π/(2n)` sandwiched between bit flips, followed,
for each memory qubit, by a controlled phase of angle `-π/n` from the control
sandwiched between controlled bit flips `cx`; each such `cx`-sandwiched triple
acts diagonally, phasing exactly the basis states with the control set and
the target clear. -/
theorem c5_exponential_phase_operator {n : ℕ} (m : List (Fin n)) (c : Fin n) :
    (apply_u_and_cu m c =
      (m.flatMap fun q => [Gate.x q, Gate.p (Real.pi / (2 * (m.length : ℝ))) q, Gate.x q]) ++
        (m.flatMap fun q =>
          [Gate.cx c q, Gate.cp (-Real.pi / (m.length : ℝ)) c q, Gate.cx c q])) ∧
      ∀ (c' t : Fin n), c' ≠ t → ∀ (len : ℕ) (ψ : State n),
        applyCircuit (cu_squared c' t len) ψ =
          fun σ => (if σ c' && !(σ t) then Complex.exp ((-Real.pi / (len : ℝ)) * Complex.I)
            else 1) * ψ σ :=
  ⟨rfl, fun c' t hct len ψ => cu_squared_diag hct len ψ⟩

theorem c5_exponential_phase_operator_witness :
    apply_u_and_cu [(0 : Fin 2)] (1 : Fin 2) =
      (([(0 : Fin 2)]).flatMap fun q =>
          [Gate.x q, Gate.p (Real.pi / (2 * ((([(0 : Fin 2)]).length : ℕ) : ℝ))) q, Gate.x q]) ++
        (([(0 : Fin 2)]).flatMap fun q =>
          [Gate.cx (1 : Fin 2) q,
            Gate.cp (-Real.pi / ((([(0 : Fin 2)]).length : ℕ) : ℝ)) (1 : Fin 2) q,
            Gate.cx (1 : Fin 2) q]) :=
  (c5_exponential_phase_operator [(0 : Fin 2)] (1 : Fin 2)).1

/-- C6: applying the pattern-encoding gate list twice with the same value and
register is the identity on every state. -/
theorem c6_encoding_self_inverse {n : ℕ} (v : ℕ) (qs : List (Fin n)) (gs : List (Gate n))
    (hfit : v < 2 ^ qs.length) (hok : apply_pauli_from_int v qs = .ok gs) (ψ : State n) :
    applyCircuit (gs ++ gs) ψ = ψ := by
  have h2 := apply_pauli_from_int_ok v qs hfit
  rw [hok] at h2
  injection h2 with h3
  subst h3
  obtain ⟨L, hL⟩ := pauliGates_eq_map_x v qs
  rw [hL]
  exact xlist_double L ψ

theorem c6_encoding_self_inverse_witness :
    applyCircuit (pauliGates 1 [(0 : Fin 1)] ++ pauliGates 1 [(0 : Fin 1)])
        (basisState (fun _ => false)) = basisState (fun _ => false) :=
  c6_encoding_self_inverse 1 [(0 : Fin 1)] (pauliGates 1 [(0 : Fin 1)])
    (by norm_num) (apply_pauli_from_int_ok 1 [(0 : Fin 1)] (by norm_num))
    (basisState (fun _ => false))

/-- C7: evaluating the rotation-angle schedule on any argument below 1 yields
an error outcome, never a number (at 0 a division error, below 0 a silent
invalid result), and at the boundary `find_angle 1` is exactly `-π`. -/
theorem c7_find_angle_domain :
    (∀ j : ℤ, j < 1 → ∀ θ : ℝ, find_angle_checked j ≠ AngleResult.ok θ) ∧
      find_angle_checked 1 = AngleResult.ok (find_angle 1) ∧ find_angle 1 = -Real.pi :=
  ⟨fun _ hj θ => find_angle_checked_not_ok hj θ, find_angle_checked_one_eq, find_angle_one⟩

theorem c7_find_angle_domain_witness :
    ((0 : ℤ) < 1 ∧ find_angle_checked 0 ≠ AngleResult.ok 0) ∧ find_angle 1 = -Real.pi :=
  ⟨⟨by norm_num, c7_find_angle_domain.1 0 (by norm_num) 0⟩, c7_find_angle_domain.2.2⟩

/-- C8: the pattern-encoding operation fails with the overflow error exactly
when the value needs more bits than the register provides (the checked walk
hits the offending out-of-range bit), and on a fitting value it succeeds with
the expected bit-flip gate list. -/
theorem c8_encoding_overflow {n : ℕ} (v : ℕ) (qs : List (Fin n)) :
    (2 ^ qs.length ≤ v →
        apply_pauli_from_int v qs = .error StorageError.encodingOverflow) ∧
      (v < 2 ^ qs.length → apply_pauli_from_int v qs = .ok (pauliGates v qs)) :=
  ⟨fun hof => apply_pauli_from_int_overflow v qs hof,
    fun hfit => apply_pauli_from_int_ok v qs hfit⟩

theorem c8_encoding_overflow_witness :
    apply_pauli_from_int 4 [(0 : Fin 2), (1 : Fin 2)] =
        .error StorageError.encodingOverflow ∧
      apply_pauli_from_int 1 [(0 : Fin 2), (1 : Fin 2)] =
        .ok (pauliGates 1 [(0 : Fin 2), (1 : Fin 2)]) :=
  ⟨(c8_encoding_overflow 4 [(0 : Fin 2), (1 : Fin 2)]).1 (by norm_num),
    (c8_encoding_overflow 1 [(0 : Fin 2), (1 : Fin 2)]).2 (by norm_num)⟩

/-- C9: the threshold parameter of the superposed-query variant is inert: for
any two threshold values, of any types, the variant produces the same gate
sequence and the same final state on every initial state. -/
theorem c9_threshold_inert {n : ℕ} {α β : Type} (i m : List (Fin n)) (c : Fin n)
    (t1 : α) (t2 : β) (ψ : State n) :
    bv_algorithm i m c t1 = bv_algorithm i m c t2 ∧
      applyCircuit (bv_algorithm i m c t1) ψ = applyCircuit (bv_algorithm i m c t2) ψ :=
  ⟨rfl, rfl⟩

/-- C1, counterexample: after one per-pattern run of the storage sequence
(pattern `1`, width-1 registers, `u1` pre-set to 1), the basis state whose
memory register holds `1` — not all-zero — has amplitude 1, not 0: the
memory register keeps the stored pattern instead of returning to zero. -/
theorem c1_memory_not_restored_counterexample :
    applyCircuit (storage_algorithm [1] (pReg 1) (u0I 1) (u1I 1) (mReg 1)) (initState 1)
        (mkB (zf 1) false false (bitsOf 1 1)) = 1 ∧
      mOf (mkB (zf 1) false false (bitsOf 1 1)) ≠ zf 1 :=
  ⟨storage_single_one_apply, by decide⟩

/-- C1 (amended): after the full storage sequence on distinct fitting
patterns, every basis state of nonzero amplitude has the pattern register and
both intermediate qubits back at zero, while the memory register holds one of
the stored patterns (it does not return to all-zero); and retrieval creates
no new memory-register support: a memory value carrying amplitude zero
everywhere before retrieval still carries amplitude zero everywhere after. -/
theorem c1_storage_register_restoration (w : ℕ) (ps : List ℕ) (hnd : ps.Nodup)
    (hfit : ∀ v ∈ ps, v < 2 ^ w) (hN : 0 < ps.length) :
    (∀ σ : Basis (2 * w + 2),
        applyCircuit (storage_algorithm ps (pReg w) (u0I w) (u1I w) (mReg w))
            (initState w) σ ≠ 0 →
        pOf σ = zf w ∧ σ (u0I w) = false ∧ σ (u1I w) = false ∧
          ∃ t < ps.length, mOf σ = bitsOf w (ps.getD t 0)) ∧
      ∀ (ψ : State (2 * w + 2)) (v : Fin w → Bool),
        (∀ σ, mOf σ = v → ψ σ = 0) →
        ∀ σ, mOf σ = v →
          applyCircuit (retrieval_algorithm (pReg w) (mReg w) (u0I w)) ψ σ = 0 := by
  constructor
  · intro σ hσ
    rw [storage_total_state ps hnd hfit hN, Finset.sum_apply] at hσ
    obtain ⟨t, ht, hne⟩ := Finset.exists_ne_zero_of_sum_ne_zero hσ
    have hbs : basisState (mkB (zf w) false false (bitsOf w (ps.getD t 0))) σ ≠ 0 := by
      intro h0
      apply hne
      rw [Pi.smul_apply, h0, smul_zero]
    have hσeq : σ = mkB (zf w) false false (bitsOf w (ps.getD t 0)) := by
      by_contra hne2
      refine hbs ?_
      simp only [basisState]
      rw [if_neg hne2]
    subst hσeq
    exact ⟨pOf_mkB _ _ _ _, mkB_u0I _ _ _ _, mkB_u1I _ _ _ _,
      t, Finset.mem_range.mp ht, mOf_mkB _ _ _ _⟩
  · intro ψ v hzero σ hm
    obtain ⟨qp, qa, qb, qm, rfl⟩ : ∃ qp qa qb qm, σ = mkB qp qa qb qm :=
      ⟨_, _, _, _, eq_mkB σ⟩
    rw [retrieval_apply_mkB]
    have hqm : qm = v := by rw [← mOf_mkB qp qa qb qm]; exact hm
    have h1 : ψ (mkB qp false qb qm) = 0 := hzero _ (by rw [mOf_mkB, hqm])
    have h2 : ψ (mkB qp true qb qm) = 0 := hzero _ (by rw [mOf_mkB, hqm])
    rw [h1, h2]
    ring

theorem c1_storage_register_restoration_witness :
    pOf (mkB (zf 1) false false (bitsOf 1 1)) = zf 1 ∧
      (mkB (zf 1) false false (bitsOf 1 1)) (u0I 1) = false ∧
      (mkB (zf 1) false false (bitsOf 1 1)) (u1I 1) = false ∧
      ∃ t < ([1] : List ℕ).length,
        mOf (mkB (zf 1) false false (bitsOf 1 1)) = bitsOf 1 (([1] : List ℕ).getD t 0) :=
  (c1_storage_register_restoration 1 [1] (by simp)
      (by intro v hv; rw [List.mem_singleton] at hv; subst hv; norm_num)
      (by norm_num)).1
    (mkB (zf 1) false false (bitsOf 1 1))
    (by rw [storage_single_one_apply]; exact one_ne_zero)

/-- C2, counterexample: storing the duplicated pattern list `[1, 1]` in a
width-1 memory leaves amplitude `-√(1/2) ≠ 0` on the basis state with
`u1 = 1` and memory all-zero — the final state is not a superposition of the
stored patterns with the claimed per-pattern weights, under which that basis
state would carry amplitude 0. -/
theorem c2_duplicate_pattern_counterexample :
    applyCircuit (storage_algorithm [1, 1] (pReg 1) (u0I 1) (u1I 1) (mReg 1)) (initState 1)
        (mkB (zf 1) false true (zf 1)) = -((Real.sqrt (1 / 2) : ℝ) : ℂ) ∧
      ((Real.sqrt (1 / 2) : ℝ) : ℂ) ≠ 0 := by
  constructor
  · have hcir : storage_algorithm [1, 1] (pReg 1) (u0I 1) (u1I 1) (mReg 1) =
        storage_step 1 (pReg 1) (u0I 1) (u1I 1) (mReg 1) 1 2 ++
          (storage_step 1 (pReg 1) (u0I 1) (u1I 1) (mReg 1) 2 2 ++ []) := rfl
    rw [hcir, applyCircuit_append, applyCircuit_append, applyCircuit_nil]
    rw [show initState 1 = basisState (mkB (zf 1) false true (zf 1)) from rfl]
    rw [storage_step_processing 1 1 2]
    rw [applyCircuit_add, applyCircuit_smul, applyCircuit_smul]
    rw [storage_step_frozen_eq 1 2 2, storage_step_processing 1 2 2]
    rw [show (2 + 1 - 1 : ℕ) = 2 from rfl, show (2 + 1 - 2 : ℕ) = 1 from rfl]
    have hs2 : (-(Real.sin (find_angle 2 / 2)) : ℝ) = Real.sqrt (1 / 2) := by
      rw [neg_sin_find_angle_half 2 (by norm_num)]
      norm_num
    have hc2 : Real.cos (find_angle 2 / 2) = Real.sqrt (1 / 2) := by
      rw [cos_find_angle_half]
      norm_num
    have hc1 : Real.cos (find_angle 1 / 2) = 0 := by
      rw [cos_find_angle_half]
      norm_num
    have hs1 : Real.sin (find_angle 1 / 2) = -1 := by
      have h := neg_sin_find_angle_half 1 (by norm_num)
      rw [Nat.cast_one] at h
      norm_num [Real.sqrt_one] at h
      linarith
    rw [hc1, hs1, hc2]
    rw [show -((Real.sin (find_angle 2 / 2) : ℝ) : ℂ) = ((Real.sqrt (1 / 2) : ℝ) : ℂ) from
      by rw [← Complex.ofReal_neg, hs2]]
    have hb0 : basisState (mkB (zf 1) false false (bitsOf 1 1))
        (mkB (zf 1) false true (zf 1)) = 0 := by
      simp [basisState, mkB_eq_mkB_iff]
    have hb1 : basisState (mkB (zf 1) false true (zf 1))
        (mkB (zf 1) false true (zf 1)) = 1 := by
      simp [basisState]
    simp only [Pi.add_apply, Pi.smul_apply, hb0, hb1, smul_eq_mul]
    push_cast
    ring
  · rw [Complex.ofReal_ne_zero]
    positivity

/-- C2 (amended): for a list of DISTINCT fitting patterns (starting from the
all-zero state with `u1 = 1`), the storage loop folds them into the uniform
superposition in which each stored pattern carries amplitude `1/√N`; this
amplitude equals `1/√(load_index)` times the norm `√(load_index/N)` the
stored branch has right after that pattern is folded in, i.e. each pattern
contributes with weight `1/√(load_index)` relative to the already-stored
superposition; the folding is performed per pattern by the controlled
rotation on `(u0, u1)` with angle `find_angle (N + 1 - load_index)`, where
`find_angle j = -2·arccos(√((j-1)/j))`. -/
theorem c2_storage_superposition_weights (w : ℕ) (ps : List ℕ) (hnd : ps.Nodup)
    (hfit : ∀ v ∈ ps, v < 2 ^ w) (hN : 0 < ps.length) :
    (applyCircuit (storage_algorithm ps (pReg w) (u0I w) (u1I w) (mReg w)) (initState w) =
      ∑ t ∈ Finset.range ps.length, ((1 / Real.sqrt (ps.length : ℝ) : ℝ) : ℂ) •
        basisState (mkB (zf w) false false (bitsOf w (ps.getD t 0)))) ∧
      (∀ k : ℕ, 1 ≤ k → k ≤ ps.length →
        (1 / Real.sqrt (ps.length : ℝ) : ℝ) =
          (1 / Real.sqrt (k : ℝ)) * Real.sqrt ((k : ℝ) / (ps.length : ℝ))) ∧
      (∀ (u0 u1 : Fin (2 * w + 2)) (i len_ps : ℕ),
        controlled_si u0 u1 i len_ps = Gate.cry (find_angle (len_ps + 1 - i)) u0 u1) ∧
      ∀ j : ℕ, find_angle j = -2 * Real.arccos (Real.sqrt (((j : ℝ) - 1) / (j : ℝ))) := by
  refine ⟨storage_total_state ps hnd hfit hN, ?_, fun _ _ _ _ => rfl, fun _ => rfl⟩
  intro k hk1 hk2
  have hkpos : (0 : ℝ) < (k : ℝ) := by exact_mod_cast hk1
  have hsk : Real.sqrt (k : ℝ) ≠ 0 := ne_of_gt (Real.sqrt_pos.mpr hkpos)
  rw [Real.sqrt_div (le_of_lt hkpos)]
  rw [div_mul_div_comm, one_mul, ← div_div, div_self hsk]

theorem c2_storage_superposition_weights_witness :
    applyCircuit (storage_algorithm [1] (pReg 1) (u0I 1) (u1I 1) (mReg 1)) (initState 1) =
      ∑ t ∈ Finset.range ([1] : List ℕ).length,
        ((1 / Real.sqrt ((([1] : List ℕ).length : ℕ) : ℝ) : ℝ) : ℂ) •
          basisState (mkB (zf 1) false false (bitsOf 1 (([1] : List ℕ).getD t 0))) :=
  (c2_storage_superposition_weights 1 [1] (by simp)
      (by intro v hv; rw [List.mem_singleton] at hv; subst hv; norm_num)
      (by norm_num)).1

/-- C3: storing the single pattern `p` and then running retrieval with the
query `p` loaded into the input register makes observing 0 on the control
qubit strictly more likely than observing 1. -/
theorem c3_single_pattern_retrieval (w p : ℕ) (hfit : p < 2 ^ w) :
    marginalProb
        (applyCircuit
          (storage_algorithm [p] (pReg w) (u0I w) (u1I w) (mReg w)
            ++ pauliGates p (pReg w)
            ++ retrieval_algorithm (pReg w) (mReg w) (u0I w))
          (initState w))
        (u0I w) true <
      marginalProb
        (applyCircuit
          (storage_algorithm [p] (pReg w) (u0I w) (u1I w) (mReg w)
            ++ pauliGates p (pReg w)
            ++ retrieval_algorithm (pReg w) (mReg w) (u0I w))
          (initState w))
        (u0I w) false := by
  have hstate : applyCircuit
      (storage_algorithm [p] (pReg w) (u0I w) (u1I w) (mReg w)
        ++ pauliGates p (pReg w)
        ++ retrieval_algorithm (pReg w) (mReg w) (u0I w))
      (initState w) = basisState (mkB (bitsOf w p) false false (bitsOf w p)) := by
    rw [applyCircuit_append, applyCircuit_append]
    have h1 : applyCircuit (storage_algorithm [p] (pReg w) (u0I w) (u1I w) (mReg w))
        (initState w) = basisState (mkB (zf w) false false (bitsOf w p)) := by
      rw [storage_total_state [p] (by simp)
        (by intro v hv; rw [List.mem_singleton] at hv; subst hv; exact hfit)
        (by norm_num)]
      rw [show ([p] : List ℕ).length = 1 from rfl]
      rw [Finset.sum_range_one]
      rw [show ([p] : List ℕ).getD 0 0 = p from rfl]
      rw [Nat.cast_one, Real.sqrt_one, div_one, Complex.ofReal_one, one_smul]
    rw [h1]
    have h2 : applyCircuit (pauliGates p (pReg w))
        (basisState (mkB (zf w) false false (bitsOf w p))) =
        basisState (mkB (bitsOf w p) false false (bitsOf w p)) := by
      rw [pauliGates_pReg_delta]
      refine congrArg basisState (mkB_eq_mkB_iff.mpr ⟨?_, rfl, rfl, rfl⟩)
      funext j
      simp [zf]
    rw [h2]
    exact retrieval_match_delta (bitsOf w p) false
  rw [hstate, marginalProb_basisState, marginalProb_basisState]
  simp

theorem c3_single_pattern_retrieval_witness :
    marginalProb
        (applyCircuit
          (storage_algorithm [1] (pReg 1) (u0I 1) (u1I 1) (mReg 1)
            ++ pauliGates 1 (pReg 1)
            ++ retrieval_algorithm (pReg 1) (mReg 1) (u0I 1))
          (initState 1))
        (u0I 1) true <
      marginalProb
        (applyCircuit
          (storage_algorithm [1] (pReg 1) (u0I 1) (u1I 1) (mReg 1)
            ++ pauliGates 1 (pReg 1)
            ++ retrieval_algorithm (pReg 1) (mReg 1) (u0I 1))
          (initState 1))
        (u0I 1) false :=
  c3_single_pattern_retrieval 1 1 (by norm_num)

/-- C4: normalization invariant: starting from any normalized state, after
every prefix of the storage-then-retrieval gate sequence — hence after every
single gate application — the sum of squared amplitude magnitudes is exactly
1, in particular within the stated tolerance, because every applied gate is
well-formed and norm-preserving. -/
theorem c4_normalization_invariant (w : ℕ) (ps : List ℕ) (ψ : State (2 * w + 2))
    (hψ : normSum ψ = 1) (pre suf : List (Gate (2 * w + 2)))
    (hsplit : pre ++ suf =
      storage_algorithm ps (pReg w) (u0I w) (u1I w) (mReg w)
        ++ retrieval_algorithm (pReg w) (mReg w) (u0I w)) :
    normSum (applyCircuit pre ψ) = 1 ∧
      |normSum (applyCircuit pre ψ) - 1| ≤ 1e-9 := by
  have hwf : ∀ g ∈ pre, Gate.WF g := by
    intro g hg
    have hmem : g ∈ pre ++ suf := List.mem_append_left suf hg
    rw [hsplit] at hmem
    rcases List.mem_append.mp hmem with h | h
    · exact storage_algorithm_wf ps g h
    · exact retrieval_algorithm_wf g h
  have h1 : normSum (applyCircuit pre ψ) = 1 := by
    rw [normSum_applyCircuit pre hwf, hψ]
  refine ⟨h1, ?_⟩
  rw [h1]
  norm_num

theorem c4_normalization_invariant_witness :
    normSum (applyCircuit ([] : List (Gate (2 * 1 + 2)))
        (basisState (mkB (zf 1) false true (zf 1)))) = 1 ∧
      |normSum (applyCircuit ([] : List (Gate (2 * 1 + 2)))
        (basisState (mkB (zf 1) false true (zf 1)))) - 1| ≤ 1e-9 :=
  c4_normalization_invariant 1 [] (basisState (mkB (zf 1) false true (zf 1)))
    (normSum_basisState _) []
    (storage_algorithm [] (pReg 1) (u0I 1) (u1I 1) (mReg 1)
      ++ retrieval_algorithm (pReg 1) (mReg 1) (u0I 1)) rfl

/-- C10: the retrieval sequence leaves the marginal probability distribution
over the memory register unchanged: for every input state and every memory
bit pattern `v`, the probability of observing the memory register in `v`
after retrieval equals the probability before. -/
theorem c10_memory_marginal_preserved (w : ℕ) (ψ : State (2 * w + 2))
    (v : Fin w → Bool) :
    mMarginal (applyCircuit (retrieval_algorithm (pReg w) (mReg w) (u0I w)) ψ) v =
      mMarginal ψ v := by
  unfold mMarginal
  have hiff : ∀ σ : Basis (2 * w + 2), mOf σ = v ↔ mOf (flipMap (u0I w) σ) = v := by
    intro σ
    rw [mOf_flip_u0]
  rw [sum_pair_split (u0I w) (fun σ => mOf σ = v) hiff
      (fun σ => Complex.normSq
        (applyCircuit (retrieval_algorithm (pReg w) (mReg w) (u0I w)) ψ σ)),
    sum_pair_split (u0I w) (fun σ => mOf σ = v) hiff
      (fun σ => Complex.normSq (ψ σ))]
  apply Finset.sum_congr rfl
  intro σ _
  by_cases hcond : mOf σ = v ∧ σ (u0I w) = false
  · rw [if_pos hcond, if_pos hcond]
    obtain ⟨qp, qb, qm, hσm⟩ : ∃ qp qb qm, σ = mkB qp false qb qm :=
      ⟨fun j => σ (pIdx w j), σ (u1I w), fun j => σ (mIdx w j), by
        conv_lhs => rw [eq_mkB σ]
        rw [hcond.2]⟩
    rw [hσm, flip_u0_mkB]
    exact retrieval_pair_normSq ψ qp qb qm
  · rw [if_neg hcond, if_neg hcond]

end Claims

end Quantum
